import Mathlib

/-!
Verification development for the per-file tabular transform pipeline of app.py
(Smart Data Tool): encoding-aware CSV ingestion, cleaning operations
(duplicate removal, numeric-mean imputation), column projection, and
format-preserving export.

Text is modelled as a list of Unicode code points (List Nat), byte streams as
lists of byte values (List Nat). A Table is an ordered header of column names
plus a list of rows of values, where a value is a rational number, a text
field, or the missing marker (pandas NaN).
-/

/-! ## List splitting and joining on a separator -/

/-- Split a list at every occurrence of the separator. The result is always
nonempty; the separator occurs in none of the parts. -/
def splitSep (sep : Nat) : List Nat → List (List Nat)
  | [] => [[]]
  | c :: cs =>
    match splitSep sep cs with
    | [] => [[]]
    | p :: ps => if c = sep then [] :: p :: ps else (c :: p) :: ps

/-- Interleave the separator between the parts. -/
def joinSep (sep : Nat) : List (List Nat) → List Nat
  | [] => []
  | [p] => p
  | p :: q :: qs => p ++ sep :: joinSep sep (q :: qs)

/-! ## Decimal digits -/

def isDigitCh (c : Nat) : Bool := 48 ≤ c && c ≤ 57

/-- Value of a big-endian digit-character list. -/
def digitsToNat (s : List Nat) : Nat := s.foldl (fun a c => a * 10 + (c - 48)) 0

/-- Parse a nonempty all-digit field. -/
def parseDigits (s : List Nat) : Option Nat :=
  if !s.isEmpty && s.all isDigitCh then some (digitsToNat s) else none

/-- Little-endian digits of n, with explicit fuel for structural recursion. -/
def toDigitsRevAux : Nat → Nat → List Nat
  | 0, _ => []
  | fuel + 1, n => if n = 0 then [] else n % 10 :: toDigitsRevAux fuel (n / 10)

/-- Big-endian digit characters of a natural number. -/
def natToDigits (n : Nat) : List Nat :=
  if n = 0 then [48] else ((toDigitsRevAux n n).map (fun d => d + 48)).reverse

/-- Digit characters of an integer, with a leading minus sign when negative. -/
def intToDigits (i : Int) : List Nat :=
  if i < 0 then 45 :: natToDigits i.natAbs else natToDigits i.natAbs

/-! ## Numeric fields: parsing and canonical rendering

pandas infers a column as numeric when every nonempty field parses as a
number; we model the decimal fragment: an optional minus sign, an integer
part, and an optional fractional part after one dot. -/

/-- Split a field at the first dot, if any. -/
def splitDot : List Nat → Option (List Nat × List Nat)
  | [] => none
  | c :: cs =>
    if c = 46 then some ([], cs)
    else (splitDot cs).map (fun p => (c :: p.1, p.2))

def numParseNonneg (s : List Nat) : Option Rat :=
  match splitDot s with
  | none => (parseDigits s).map (fun n => (n : Rat))
  | some (a, b) =>
    match parseDigits a, parseDigits b with
    | some x, some y => some ((x : Rat) + (y : Rat) / ((10 : Rat) ^ b.length))
    | _, _ => none

/-- Parse a decimal numeral field to an exact rational value. -/
def numParse : List Nat → Option Rat
  | [] => none
  | c :: cs =>
    if c = 45 then (numParseNonneg cs).map (fun q => -q)
    else numParseNonneg (c :: cs)

/-- Least exponent k with d dividing 10 ^ k, searched up to d itself
(which suffices whenever such an exponent exists at all). -/
def decExpOf (d : Nat) : Nat :=
  (((List.range (d + 1)).find? (fun k => 10 ^ k % d = 0)).getD 0)

/-- Exactly k digit characters for m, left-padded with zeros. -/
def fracDigitsPad (k m : Nat) : List Nat :=
  List.replicate (k - (natToDigits m).length) 48 ++ natToDigits m

/-- Canonical decimal rendering of a rational whose denominator divides a
power of ten (the only rationals a numeric CSV field can denote). -/
def renderRat (q : Rat) : List Nat :=
  if q.den = 1 then intToDigits q.num
  else
    let k := decExpOf q.den
    let m := q.num.natAbs * 10 ^ k / q.den
    (if q.num < 0 then [45] else []) ++
      natToDigits (m / 10 ^ k) ++ 46 :: fracDigitsPad k (m % 10 ^ k)

/-! ## Tables -/

/-- A cell value: a number, a text field, or the missing marker (NaN). -/
inductive Value where
  | num (q : Rat)
  | str (s : List Nat)
  | missing
deriving DecidableEq

/-- A table: ordered column names and rows of values. -/
structure Table where
  header : List (List Nat)
  rows : List (List Value)
deriving DecidableEq

/-- Uniform row length, the Table shape invariant. -/
def tableWF (t : Table) : Bool :=
  t.rows.all (fun r => r.length == t.header.length)

/-! ## Delimited-text reading (pd.read_csv, app.py line 55)

First nonblank line is the header, later nonblank lines are records; a
column is numeric when every nonempty field in it parses as a number; empty
fields are the missing marker. -/

/-- A field is compatible with a numeric column: empty or a numeral. -/
def fieldNumericOk (f : List Nat) : Bool := f.isEmpty || (numParse f).isSome

/-- Per-column numeric-dtype flags, inferred over all records. -/
def colFlags (n : Nat) (records : List (List (List Nat))) : List Bool :=
  (List.range n).map (fun j => records.all (fun r => fieldNumericOk (r.getD j [])))

/-- Convert one field given the numeric flag of its column. -/
def convVal (flag : Bool) (f : List Nat) : Value :=
  if f = [] then Value.missing
  else if flag then
    match numParse f with
    | some q => Value.num q
    | none => Value.str f
  else Value.str f

def convRow (flags : List Bool) (r : List (List Nat)) : List Value :=
  List.zipWith convVal flags r

/-- Nonblank lines of a text (pandas skips fully blank lines). -/
def textLines (cs : List Nat) : List (List Nat) :=
  (splitSep 10 cs).filter (fun l => !l.isEmpty)

/-- Parse decoded delimited text into a Table. Fails when there is no
nonblank line at all, or when a record has a field count different from
the header. -/
def readText (cs : List Nat) : Option Table :=
  match textLines cs with
  | [] => none
  | h :: rs =>
    if (rs.map (splitSep 44)).all (fun r => r.length == (splitSep 44 h).length) then
      some ⟨splitSep 44 h, (rs.map (splitSep 44)).map
        (convRow (colFlags (splitSep 44 h).length (rs.map (splitSep 44))))⟩
    else none

/-! ## Delimited-text writing (df.to_csv(index=False), app.py line 125) -/

/-- Render one cell: numbers canonically, text as is, missing as empty. -/
def renderValue : Value → List Nat
  | Value.num q => renderRat q
  | Value.str s => s
  | Value.missing => []

/-- Serialize a Table: header line then one line per row, each line
terminated by a newline. -/
def writeText (t : Table) : List Nat :=
  ((joinSep 44 t.header :: t.rows.map (fun r => joinSep 44 (r.map renderValue))).map
    (fun l => l ++ [10])).flatten

/-! ## Character encodings (app.py lines 50-55)

The four encodings offered by the tool. Decoding is strict: invalid bytes
make the whole decode fail, no character is ever substituted. -/

inductive Encoding where
  | utf8
  | cp1252
  | latin1
  | iso8859_1
deriving DecidableEq

/-- Strict decoding of one UTF-8 character from the head of a byte list,
rejecting overlong forms, surrogates, and values beyond U+10FFFF. -/
def utf8DecodeOne : List Nat → Option (Nat × List Nat)
  | [] => none
  | b :: rest =>
    if b < 0x80 then some (b, rest)
    else if b < 0xC2 then none
    else if b < 0xE0 then
      match rest with
      | b1 :: r =>
        if 0x80 ≤ b1 ∧ b1 < 0xC0 then some ((b - 0xC0) * 64 + (b1 - 0x80), r)
        else none
      | [] => none
    else if b < 0xF0 then
      match rest with
      | b1 :: b2 :: r =>
        if (if b = 0xE0 then 0xA0 ≤ b1 ∧ b1 < 0xC0
            else if b = 0xED then 0x80 ≤ b1 ∧ b1 < 0xA0
            else 0x80 ≤ b1 ∧ b1 < 0xC0) ∧ (0x80 ≤ b2 ∧ b2 < 0xC0) then
          some ((b - 0xE0) * 4096 + (b1 - 0x80) * 64 + (b2 - 0x80), r)
        else none
      | _ => none
    else if b < 0xF5 then
      match rest with
      | b1 :: b2 :: b3 :: r =>
        if (if b = 0xF0 then 0x90 ≤ b1 ∧ b1 < 0xC0
            else if b = 0xF4 then 0x80 ≤ b1 ∧ b1 < 0x90
            else 0x80 ≤ b1 ∧ b1 < 0xC0) ∧ (0x80 ≤ b2 ∧ b2 < 0xC0)
              ∧ (0x80 ≤ b3 ∧ b3 < 0xC0) then
          some ((b - 0xF0) * 262144 + (b1 - 0x80) * 4096 + (b2 - 0x80) * 64
            + (b3 - 0x80), r)
        else none
      | _ => none
    else none

def utf8DecodeAux : Nat → List Nat → Option (List Nat)
  | _, [] => some []
  | 0, _ :: _ => none
  | fuel + 1, b :: rest =>
    match utf8DecodeOne (b :: rest) with
    | none => none
    | some (c, r) =>
      match utf8DecodeAux fuel r with
      | none => none
      | some cs => some (c :: cs)

def utf8Decode (bs : List Nat) : Option (List Nat) := utf8DecodeAux bs.length bs

/-- Shortest-form UTF-8 encoding of one code point. -/
def utf8EncodeChar (c : Nat) : Option (List Nat) :=
  if c < 0x80 then some [c]
  else if c < 0x800 then some [0xC0 + c / 64, 0x80 + c % 64]
  else if c < 0x10000 then
    if 0xD800 ≤ c ∧ c < 0xE000 then none
    else some [0xE0 + c / 4096, 0x80 + c / 64 % 64, 0x80 + c % 64]
  else if c < 0x110000 then
    some [0xF0 + c / 262144, 0x80 + c / 4096 % 64, 0x80 + c / 64 % 64,
      0x80 + c % 64]
  else none

/-- The 27 bytes of the 0x80-0x9F range that Windows-1252 maps to code
points; the five bytes absent here (0x81, 0x8D, 0x8F, 0x90, 0x9D) are
undefined and make a strict decode fail. -/
def cp1252Table : List (Nat × Nat) :=
  [(0x80, 0x20AC), (0x82, 0x201A), (0x83, 0x0192), (0x84, 0x201E),
   (0x85, 0x2026), (0x86, 0x2020), (0x87, 0x2021), (0x88, 0x02C6),
   (0x89, 0x2030), (0x8A, 0x0160), (0x8B, 0x2039), (0x8C, 0x0152),
   (0x8E, 0x017D), (0x91, 0x2018), (0x92, 0x2019), (0x93, 0x201C),
   (0x94, 0x201D), (0x95, 0x2022), (0x96, 0x2013), (0x97, 0x2014),
   (0x98, 0x02DC), (0x99, 0x2122), (0x9A, 0x0161), (0x9B, 0x203A),
   (0x9C, 0x0153), (0x9E, 0x017E), (0x9F, 0x0178)]

def cp1252DecodeByte (b : Nat) : Option Nat :=
  if b < 0x80 then some b
  else if 0xA0 ≤ b ∧ b < 0x100 then some b
  else (cp1252Table.find? (fun p => p.1 == b)).map (fun p => p.2)

def cp1252EncodeChar (c : Nat) : Option Nat :=
  if c < 0x80 then some c
  else if 0xA0 ≤ c ∧ c < 0x100 then some c
  else (cp1252Table.find? (fun p => p.2 == c)).map (fun p => p.1)

/-- Decode one byte under a single-byte encoding. -/
def byteDecode : Encoding → Nat → Option Nat
  | Encoding.utf8, _ => none
  | Encoding.cp1252, b => cp1252DecodeByte b
  | Encoding.latin1, b => if b < 0x100 then some b else none
  | Encoding.iso8859_1, b => if b < 0x100 then some b else none

/-- Encode one code point to bytes. -/
def charEncode : Encoding → Nat → Option (List Nat)
  | Encoding.utf8, c => utf8EncodeChar c
  | Encoding.cp1252, c => (cp1252EncodeChar c).map (fun b => [b])
  | Encoding.latin1, c => if c < 0x100 then some [c] else none
  | Encoding.iso8859_1, c => if c < 0x100 then some [c] else none

/-- Strict decode of a whole byte stream. -/
def decodeBytes : Encoding → List Nat → Option (List Nat)
  | Encoding.utf8, bs => utf8Decode bs
  | e, bs => bs.mapM (byteDecode e)

/-- Strict encode of a whole code-point stream. -/
def encodeChars (e : Encoding) (cs : List Nat) : Option (List Nat) :=
  (cs.mapM (charEncode e)).map List.flatten

/-! ## The Reader and Writer (app.py lines 49-55 and 121-131) -/

inductive ReadError where
  | decodeError
  | parseError
deriving DecidableEq

/-- Read raw bytes under a chosen encoding into a Table, as pd.read_csv
with a strict codec does: invalid bytes are a DecodeError. -/
def readCsv (e : Encoding) (bs : List Nat) : Except ReadError Table :=
  match decodeBytes e bs with
  | none => Except.error ReadError.decodeError
  | some cs =>
    match readText cs with
    | none => Except.error ReadError.parseError
    | some t => Except.ok t

/-- Serialize a Table and encode it, as df.to_csv with an encoding does;
none models an EncodeError for a value outside the target charset. -/
def toCsv (e : Encoding) (t : Table) : Option (List Nat) :=
  encodeChars e (writeText t)

/-! ## Cleaning operation: duplicate removal (app.py lines 80-84) -/

/-- Keep each row not seen before, scanning left to right. -/
def dedupRowsAux (seen : List (List Value)) : List (List Value) → List (List Value)
  | [] => []
  | r :: rs =>
    if r ∈ seen then dedupRowsAux seen rs
    else r :: dedupRowsAux (r :: seen) rs

def dropDuplicates (rs : List (List Value)) : List (List Value) :=
  dedupRowsAux [] rs

/-- DataFrame.empty: a frame with zero columns or zero rows. -/
def tableEmpty (t : Table) : Bool := t.header.isEmpty || t.rows.isEmpty

/-- df.drop_duplicates() plus the removed-row count the app reports
(removed = original - len(df), app.py lines 81-83). DataFrame.drop_duplicates
returns an unchanged copy for an empty frame (zero columns or zero rows). -/
def removeDuplicateRows (t : Table) : Table × Nat :=
  if tableEmpty t then (t, 0)
  else
    let rs := dropDuplicates t.rows
    (⟨t.header, rs⟩, t.rows.length - rs.length)

/-! ## Cleaning operation: numeric-mean imputation (app.py lines 87-90) -/

/-- Cell j of a row; out-of-range reads are the missing marker. -/
def cellAt (r : List Value) (j : Nat) : Value := r.getD j Value.missing

/-- A cell compatible with a numeric dtype (number or NaN). -/
def isNumCell : Value → Bool
  | Value.str _ => false
  | _ => true

/-- Column j has numeric dtype: no text cell anywhere in it
(df.select_dtypes(include=number), app.py line 88). -/
def numericCol (rows : List (List Value)) (j : Nat) : Bool :=
  rows.all (fun r => isNumCell (cellAt r j))

/-- The non-missing numeric entries of column j. -/
def colNonMissing (rows : List (List Value)) (j : Nat) : List Rat :=
  rows.filterMap (fun r =>
    match cellAt r j with
    | Value.num q => some q
    | _ => none)

/-- Column mean over non-missing entries; none when every entry is missing
(pandas mean of an all-NaN column is NaN, and fillna with NaN fills nothing). -/
def colMean (rows : List (List Value)) (j : Nat) : Option Rat :=
  match colNonMissing rows j with
  | [] => none
  | vs => some (vs.sum / (vs.length : Rat))

/-- The mean value df[numeric].mean() assigns a column with at least one
non-missing entry (app.py line 89). -/
def colMeanVal (rows : List (List Value)) (j : Nat) : Rat :=
  (colNonMissing rows j).sum / ((colNonMissing rows j).length : Rat)

/-- Fill one cell of column j: only a missing cell of a numeric column with
at least one non-missing entry changes, to the column mean. -/
def fillCell (rows : List (List Value)) (j : Nat) (v : Value) : Value :=
  match v with
  | Value.missing =>
    if numericCol rows j then
      match colMean rows j with
      | some m => Value.num m
      | none => Value.missing
    else Value.missing
  | v => v

/-- df[numeric] = df[numeric].fillna(df[numeric].mean()), app.py line 89. -/
def fillMissingNumericWithMean (t : Table) : Table :=
  ⟨t.header, t.rows.map (fun r => r.mapIdx (fun j v => fillCell t.rows j v))⟩

/-! ## Column projection (df[selected_columns], app.py line 100) -/

/-- Restrict a Table to the selected columns in the order given; fails with
the first unknown column name, as the KeyError of df[cols] does. -/
def project (t : Table) (sel : List (List Nat)) : Except (List Nat) Table :=
  match sel.find? (fun c => !t.header.contains c) with
  | some c => Except.error c
  | none =>
    Except.ok ⟨sel, t.rows.map (fun r => sel.map (fun c => cellAt r (t.header.indexOf c)))⟩

/-- The projection step of the pipeline: on failure the exception is caught
by the file-level handler and the current table is left unchanged. -/
def projectStep (t : Table) (sel : List (List Nat)) : Table :=
  match project t sel with
  | Except.ok t2 => t2
  | Except.error _ => t

/-! ## Export and download delivery (app.py lines 121-140) -/

inductive ExportFormat where
  | csv
  | excel
deriving DecidableEq

/-- MIME type attached to the download (app.py lines 127 and 131). -/
def mimeType : ExportFormat → String
  | ExportFormat.csv => "text/csv"
  | ExportFormat.excel => "application/vnd.openxmlformats-officedocument.spreadsheetml.sheet"

/-- Output extension chosen by the export branch (app.py lines 126 and 130). -/
def outputExt : ExportFormat → List Char
  | ExportFormat.csv => ['.', 'c', 's', 'v']
  | ExportFormat.excel => ['.', 'x', 'l', 's', 'x']

/-- Split a file name at its last dot, os.path.splitext style: the extension
is empty when the name has no dot or when every character before the last
dot is itself a dot. -/
def splitExt (name : List Char) : List Char × List Char :=
  let r := name.reverse
  let a := r.takeWhile (fun c => c ≠ '.')
  if a.length = r.length then (name, [])
  else
    let stem := (r.drop (a.length + 1)).reverse
    if stem.all (fun c => c = '.') then (name, [])
    else (stem, '.' :: a.reverse)

/-- extension = os.path.splitext(name)[-1].lower(), app.py line 46. -/
def fileExtension (name : List Char) : List Char :=
  (splitExt name).2.map Char.toLower

/-- Does pat occur at the head of l. -/
def leadsWith : List Char → List Char → Bool
  | [], _ => true
  | _ :: _, [] => false
  | a :: as, b :: bs => a == b && leadsWith as bs

def replaceAllAux (pat rep : List Char) : Nat → List Char → List Char
  | 0, l => l
  | _ + 1, [] => []
  | fuel + 1, c :: cs =>
    if leadsWith pat (c :: cs) then
      rep ++ replaceAllAux pat rep fuel ((c :: cs).drop pat.length)
    else c :: replaceAllAux pat rep fuel cs

/-- Python str.replace: replace every non-overlapping occurrence, left to
right. -/
def replaceAll (pat rep l : List Char) : List Char :=
  replaceAllAux pat rep l.length l

/-- file_name = data_file.name.replace(extension, output_ext), app.py
line 137, with extension the lowercased ingestion extension of line 46. -/
def downloadName (name : List Char) (fmt : ExportFormat) : List Char :=
  replaceAll (fileExtension name) (outputExt fmt) name

/-- encoding = selected_encoding if extension == ".csv" else "utf-8",
app.py line 125. -/
def exportEncoding (name : List Char) (selEnc : Encoding) : Encoding :=
  if fileExtension name = ['.', 'c', 's', 'v'] then selEnc else Encoding.utf8

/-- Modelled from the spec: the first-occurrence characterization of
duplicate removal in section 4.2 of the spec, used to compare
removeDuplicateRows against the claimed semantics. A row survives exactly
when no earlier row is value-equal to it. -/
def specFirstOccurrences (rs : List (List Value)) : List (List Value)  :=
  (rs.enum.filter (fun p => decide (p.2 ∉ rs.take p.1))).map (fun p => p.2)

/-! # Lemmas and theorems -/

/-! ## splitSep and joinSep -/

theorem splitSep_ne_nil (sep : Nat) (l : List Nat) : splitSep sep l ≠ [] := by
  cases l with
  | nil => simp [splitSep]
  | cons c cs =>
    simp only [splitSep]
    cases h : splitSep sep cs with
    | nil => simp
    | cons p ps => by_cases hc : c = sep <;> simp [hc]

theorem joinSep_splitSep (sep : Nat) (l : List Nat) :
    joinSep sep (splitSep sep l) = l := by
  induction l with
  | nil => simp [splitSep, joinSep]
  | cons c cs ih =>
    simp only [splitSep]
    cases h : splitSep sep cs with
    | nil => exact absurd h (splitSep_ne_nil sep cs)
    | cons p ps =>
      rw [h] at ih
      by_cases hc : c = sep
      · subst hc
        simpa [joinSep] using ih
      · simp only [if_neg hc]
        cases ps with
        | nil => simpa [joinSep] using congrArg (c :: ·) ih
        | cons q qs => simpa [joinSep] using congrArg (c :: ·) ih

theorem not_sep_mem_splitSep (sep : Nat) (l : List Nat) :
    ∀ p ∈ splitSep sep l, sep ∉ p := by
  induction l with
  | nil => simp [splitSep]
  | cons c cs ih =>
    simp only [splitSep]
    cases h : splitSep sep cs with
    | nil => exact absurd h (splitSep_ne_nil sep cs)
    | cons p ps =>
      rw [h] at ih
      by_cases hc : c = sep
      · subst hc
        intro r hr
        have hr' : r ∈ ([] :: p :: ps : List (List Nat)) := by simpa using hr
        rcases List.mem_cons.mp hr' with hr1 | hr1
        · simp [hr1]
        · exact ih r hr1
      · intro r hr
        simp only [if_neg hc, List.mem_cons] at hr
        rcases hr with hr | hr
        · subst hr
          intro hmem
          rcases List.mem_cons.mp hmem with h1 | h1
          · exact hc h1.symm
          · exact ih p (List.mem_cons_self p ps) h1
        · exact ih r (List.mem_cons_of_mem p hr)

theorem mem_of_mem_splitSep (sep : Nat) (l : List Nat) :
    ∀ p ∈ splitSep sep l, ∀ c ∈ p, c ∈ l := by
  induction l with
  | nil => simp [splitSep]
  | cons a cs ih =>
    simp only [splitSep]
    cases h : splitSep sep cs with
    | nil => exact absurd h (splitSep_ne_nil sep cs)
    | cons p ps =>
      rw [h] at ih
      by_cases hc : a = sep
      · subst hc
        intro r hr c hcr
        have hr' : r ∈ ([] :: p :: ps : List (List Nat)) := by simpa using hr
        rcases List.mem_cons.mp hr' with hr1 | hr1
        · subst hr1; simp at hcr
        · exact List.mem_cons_of_mem _ (ih r hr1 c hcr)
      · intro r hr c hcr
        simp only [if_neg hc, List.mem_cons] at hr
        rcases hr with hr | hr
        · subst hr
          rcases List.mem_cons.mp hcr with h1 | h1
          · exact h1 ▸ List.mem_cons_self a cs
          · exact List.mem_cons_of_mem _ (ih p (List.mem_cons_self p ps) c h1)
        · exact List.mem_cons_of_mem _ (ih r (List.mem_cons_of_mem p hr) c hcr)

theorem splitSep_append_sep (sep : Nat) (p l : List Nat) (hp : sep ∉ p) :
    splitSep sep (p ++ sep :: l) = p :: splitSep sep l := by
  induction p with
  | nil =>
    simp only [List.nil_append, splitSep]
    cases h : splitSep sep l with
    | nil => exact absurd h (splitSep_ne_nil sep l)
    | cons q qs => simp
  | cons a p ih =>
    have ha : a ≠ sep := fun h => hp (h ▸ List.mem_cons_self a p)
    have hp' : sep ∉ p := fun h => hp (List.mem_cons_of_mem a h)
    rw [List.cons_append]
    simp only [splitSep]
    rw [ih hp']
    simp [ha]

theorem splitSep_no_sep (sep : Nat) (p : List Nat) (hp : sep ∉ p) :
    splitSep sep p = [p] := by
  induction p with
  | nil => simp [splitSep]
  | cons a p ih =>
    have ha : a ≠ sep := fun h => hp (h ▸ List.mem_cons_self a p)
    have hp' : sep ∉ p := fun h => hp (List.mem_cons_of_mem a h)
    simp [splitSep, ih hp', ha]

theorem splitSep_joinSep (sep : Nat) (parts : List (List Nat))
    (hne : parts ≠ []) (hs : ∀ p ∈ parts, sep ∉ p) :
    splitSep sep (joinSep sep parts) = parts := by
  induction parts with
  | nil => exact absurd rfl hne
  | cons p ps ih =>
    cases ps with
    | nil =>
      simp only [joinSep]
      exact splitSep_no_sep sep p (hs p (List.mem_cons_self p []))
    | cons q qs =>
      simp only [joinSep]
      rw [splitSep_append_sep sep p _ (hs p (List.mem_cons_self p _))]
      rw [ih (by simp) (fun r hr => hs r (List.mem_cons_of_mem p hr))]

theorem mem_joinSep (sep : Nat) (parts : List (List Nat)) :
    ∀ c ∈ joinSep sep parts, c = sep ∨ ∃ p ∈ parts, c ∈ p := by
  induction parts with
  | nil => simp [joinSep]
  | cons p ps ih =>
    cases ps with
    | nil =>
      intro c hc
      simp only [joinSep] at hc
      exact Or.inr ⟨p, List.mem_cons_self p [], hc⟩
    | cons q qs =>
      intro c hc
      simp only [joinSep] at hc
      rcases List.mem_append.mp hc with hc | hc
      · exact Or.inr ⟨p, List.mem_cons_self p _, hc⟩
      · rcases List.mem_cons.mp hc with hc | hc
        · exact Or.inl hc
        · rcases ih c hc with h1 | ⟨r, hr, hcr⟩
          · exact Or.inl h1
          · exact Or.inr ⟨r, List.mem_cons_of_mem p hr, hcr⟩

theorem joinSep_eq_nil_iff (sep : Nat) (parts : List (List Nat)) :
    joinSep sep parts = [] ↔ parts = [] ∨ parts = [[]] := by
  cases parts with
  | nil => simp [joinSep]
  | cons p ps =>
    cases ps with
    | nil => simp [joinSep]
    | cons q qs =>
      simp only [joinSep]
      constructor
      · intro h
        exact absurd h (by simp)
      · intro h
        rcases h with h | h <;> simp at h

theorem splitSep_flatten_lines (lines : List (List Nat))
    (h10 : ∀ l ∈ lines, (10 : Nat) ∉ l) :
    splitSep 10 ((lines.map (fun l => l ++ [10])).flatten) = lines ++ [[]] := by
  induction lines with
  | nil => simp [splitSep]
  | cons l ls ih =>
    have hl : (10 : Nat) ∉ l := h10 l (List.mem_cons_self l ls)
    have : ((l :: ls).map (fun l => l ++ [10])).flatten
        = l ++ 10 :: (ls.map (fun l => l ++ [10])).flatten := by
      simp [List.append_assoc]
    rw [this, splitSep_append_sep 10 l _ hl,
      ih (fun r hr => h10 r (List.mem_cons_of_mem l hr))]
    simp

/-! ## Digit rendering and parsing -/

theorem digitsToNat_go (s : List Nat) (a : Nat) :
    s.foldl (fun a c => a * 10 + (c - 48)) a = a * 10 ^ s.length + digitsToNat s := by
  induction s generalizing a with
  | nil => simp [digitsToNat]
  | cons c cs ih =>
    have h1 : digitsToNat (c :: cs) = (c - 48) * 10 ^ cs.length + digitsToNat cs := by
      simpa [digitsToNat] using ih (c - 48)
    simp only [List.foldl_cons, ih (a * 10 + (c - 48)), h1, List.length_cons]
    ring

theorem digitsToNat_append_singleton (s : List Nat) (c : Nat) :
    digitsToNat (s ++ [c]) = digitsToNat s * 10 + (c - 48) := by
  simp [digitsToNat, List.foldl_append]

theorem digitsToNat_rev_map (ds : List Nat) :
    digitsToNat ((ds.map (fun d => d + 48)).reverse) = Nat.ofDigits 10 ds := by
  induction ds with
  | nil => simp [digitsToNat, Nat.ofDigits]
  | cons d ds ih =>
    have h1 : ((d :: ds).map (fun d => d + 48)).reverse
        = (ds.map (fun d => d + 48)).reverse ++ [d + 48] := by simp
    rw [h1, digitsToNat_append_singleton, ih, Nat.ofDigits_cons]
    omega

theorem toDigitsRevAux_eq (fuel n : Nat) (h : n ≤ fuel) :
    toDigitsRevAux fuel n = Nat.digits 10 n := by
  induction fuel generalizing n with
  | zero =>
    have : n = 0 := Nat.le_zero.mp h
    simp [this, toDigitsRevAux]
  | succ fuel ih =>
    by_cases hn : n = 0
    · simp [hn, toDigitsRevAux]
    · have hlt : n / 10 < n := Nat.div_lt_self (Nat.pos_of_ne_zero hn) (by norm_num)
      rw [toDigitsRevAux, if_neg hn, ih (n / 10) (by omega),
        Nat.digits_def' (by norm_num : (1:Nat) < 10) (Nat.pos_of_ne_zero hn)]

theorem natToDigits_eq_digits (n : Nat) (hn : n ≠ 0) :
    natToDigits n = ((Nat.digits 10 n).map (fun d => d + 48)).reverse := by
  rw [natToDigits, if_neg hn, toDigitsRevAux_eq n n le_rfl]

theorem digitsToNat_natToDigits (n : Nat) : digitsToNat (natToDigits n) = n := by
  by_cases hn : n = 0
  · simp [hn, natToDigits, digitsToNat]
  · rw [natToDigits_eq_digits n hn, digitsToNat_rev_map, Nat.ofDigits_digits]

theorem natToDigits_mem (n : Nat) : ∀ c ∈ natToDigits n, 48 ≤ c ∧ c ≤ 57 := by
  by_cases hn : n = 0
  · simp [hn, natToDigits]
  · rw [natToDigits_eq_digits n hn]
    intro c hc
    rw [List.mem_reverse, List.mem_map] at hc
    obtain ⟨d, hd, rfl⟩ := hc
    have := Nat.digits_lt_base (by norm_num : (1:Nat) < 10) hd
    omega

theorem natToDigits_ne_nil (n : Nat) : natToDigits n ≠ [] := by
  by_cases hn : n = 0
  · simp [hn, natToDigits]
  · rw [natToDigits_eq_digits n hn]
    simp [Nat.digits_ne_nil_iff_ne_zero.mpr hn]

theorem parseDigits_natToDigits (n : Nat) : parseDigits (natToDigits n) = some n := by
  have h1 : (natToDigits n).isEmpty = false := by
    cases h : natToDigits n with
    | nil => exact absurd h (natToDigits_ne_nil n)
    | cons c cs => rfl
  have h2 : (natToDigits n).all isDigitCh = true := by
    rw [List.all_eq_true]
    intro c hc
    have := natToDigits_mem n c hc
    simp [isDigitCh]
    omega
  rw [parseDigits, h1, h2]
  simp [digitsToNat_natToDigits]

theorem digitsToNat_replicate (j : Nat) (s : List Nat) :
    digitsToNat (List.replicate j 48 ++ s) = digitsToNat s := by
  induction j with
  | zero => simp
  | succ j ih =>
    have : List.replicate (j + 1) 48 ++ s = 48 :: (List.replicate j 48 ++ s) := by
      simp [List.replicate_succ]
    rw [this]
    simpa [digitsToNat] using ih

theorem natToDigits_length_le (m k : Nat) (hk : 1 ≤ k) (hm : m < 10 ^ k) :
    (natToDigits m).length ≤ k := by
  by_cases h0 : m = 0
  · simp [h0, natToDigits]; omega
  · rw [natToDigits_eq_digits m h0]
    simp only [List.length_reverse, List.length_map]
    rw [Nat.digits_len 10 m (by norm_num) h0]
    have := Nat.log_lt_of_lt_pow h0 hm
    omega

theorem fracDigitsPad_length (k m : Nat) (hk : 1 ≤ k) (hm : m < 10 ^ k) :
    (fracDigitsPad k m).length = k := by
  have := natToDigits_length_le m k hk hm
  simp [fracDigitsPad]
  omega

theorem fracDigitsPad_mem (k m : Nat) : ∀ c ∈ fracDigitsPad k m, 48 ≤ c ∧ c ≤ 57 := by
  intro c hc
  rcases List.mem_append.mp hc with h | h
  · have := List.eq_of_mem_replicate h
    omega
  · exact natToDigits_mem m c h

theorem parseDigits_fracDigitsPad (k m : Nat) :
    parseDigits (fracDigitsPad k m) = some m := by
  have h1 : (fracDigitsPad k m).isEmpty = false := by
    rcases List.exists_cons_of_ne_nil (natToDigits_ne_nil m) with ⟨c, cs, hc⟩
    cases h : fracDigitsPad k m with
    | nil =>
      rw [fracDigitsPad, hc] at h
      rcases List.append_eq_nil.mp h with ⟨_, h2⟩
      simp at h2
    | cons a l => rfl
  have h2 : (fracDigitsPad k m).all isDigitCh = true := by
    rw [List.all_eq_true]
    intro c hc
    have := fracDigitsPad_mem k m c hc
    simp [isDigitCh]
    omega
  rw [parseDigits, h1, h2]
  simp [fracDigitsPad, digitsToNat_replicate, digitsToNat_natToDigits]

/-! ## splitDot -/

theorem splitDot_no_dot (s : List Nat) (h : (46 : Nat) ∉ s) : splitDot s = none := by
  induction s with
  | nil => rfl
  | cons c cs ih =>
    have hc : c ≠ 46 := fun hcc => h (hcc ▸ List.mem_cons_self c cs)
    have h' : (46 : Nat) ∉ cs := fun hm => h (List.mem_cons_of_mem c hm)
    simp [splitDot, hc, ih h']

theorem splitDot_append (a b : List Nat) (h : (46 : Nat) ∉ a) :
    splitDot (a ++ 46 :: b) = some (a, b) := by
  induction a with
  | nil => simp [splitDot]
  | cons c cs ih =>
    have hc : c ≠ 46 := fun hcc => h (hcc ▸ List.mem_cons_self c cs)
    have h' : (46 : Nat) ∉ cs := fun hm => h (List.mem_cons_of_mem c hm)
    simp [splitDot, hc, ih h']

/-! ## Denominators dividing a power of ten -/

theorem dvd_ten_pow_self : ∀ d : Nat, ∀ k, d ∣ 10 ^ k → d ∣ 10 ^ d := by
  intro d
  induction d using Nat.strong_induction_on with
  | _ d ih =>
    intro k h
    rcases Nat.lt_or_ge d 2 with hd2 | hd2
    · interval_cases d
      · exfalso
        have h0 : 10 ^ k = 0 := Nat.eq_zero_of_zero_dvd h
        have h1 : 0 < 10 ^ k := Nat.pos_pow_of_pos k (by norm_num)
        omega
      · exact one_dvd _
    · have hgd : Nat.gcd 10 d ∣ d := Nat.gcd_dvd_right 10 d
      have hg10 : Nat.gcd 10 d ∣ 10 := Nat.gcd_dvd_left 10 d
      by_cases hg1 : Nat.gcd 10 d = 1
      · have hco : Nat.Coprime d 10 := Nat.coprime_comm.mp hg1
        have hco2 : Nat.Coprime d (10 ^ k) := hco.pow_right k
        have := Nat.Coprime.eq_one_of_dvd hco2 h
        omega
      · have hg0 : Nat.gcd 10 d ≠ 0 := by
          intro h0
          have := Nat.eq_zero_of_gcd_eq_zero_left h0
          norm_num at this
        have hg2 : 2 ≤ Nat.gcd 10 d := by omega
        have hmg : d / Nat.gcd 10 d * Nat.gcd 10 d = d := Nat.div_mul_cancel hgd
        have hmlt : d / Nat.gcd 10 d < d := Nat.div_lt_self (by omega) (by omega)
        have h1 : d / Nat.gcd 10 d ∣ 10 ^ k := dvd_trans (Nat.div_dvd_of_dvd hgd) h
        have h2 : d / Nat.gcd 10 d ∣ 10 ^ (d / Nat.gcd 10 d) := ih _ hmlt k h1
        have h3 : d ∣ 10 ^ (d / Nat.gcd 10 d + 1) := by
          calc d = d / Nat.gcd 10 d * Nat.gcd 10 d := hmg.symm
            _ ∣ 10 ^ (d / Nat.gcd 10 d) * 10 := mul_dvd_mul h2 hg10
            _ = 10 ^ (d / Nat.gcd 10 d + 1) := (pow_succ 10 _).symm
        have h4 : d / Nat.gcd 10 d + 1 ≤ d := by
          have hle : d / Nat.gcd 10 d ≤ d / 2 := Nat.div_le_div_left hg2 (by omega)
          omega
        exact dvd_trans h3 (pow_dvd_pow 10 h4)

theorem numParseNonneg_den_dvd (s : List Nat) (q : Rat)
    (h : numParseNonneg s = some q) : ∃ k, q.den ∣ 10 ^ k := by
  rw [numParseNonneg] at h
  cases hsd : splitDot s with
  | none =>
    simp only [hsd] at h
    cases hp : parseDigits s with
    | none => simp [hp] at h
    | some n =>
      simp only [hp] at h
      simp at h
      refine ⟨0, ?_⟩
      rw [← h]
      simp
  | some ab =>
    obtain ⟨a, b⟩ := ab
    simp only [hsd] at h
    cases hpa : parseDigits a with
    | none => simp [hpa] at h
    | some x =>
      cases hpb : parseDigits b with
      | none => simp [hpa, hpb] at h
      | some y =>
        simp only [hpa, hpb, Option.some.injEq] at h
        refine ⟨b.length, ?_⟩
        have h10 : ((10 : ℚ) ^ b.length) ≠ 0 := by positivity
        have hq : q = ((x * 10 ^ b.length + y : ℤ) : ℚ) / ((10 ^ b.length : ℤ) : ℚ) := by
          rw [← h]
          push_cast
          field_simp
        have hdvd : ((Rat.divInt ((x : ℤ) * 10 ^ b.length + (y : ℤ)) ((10 : ℤ) ^ b.length)).den : ℤ)
            ∣ ((10 : ℤ) ^ b.length) := Rat.den_dvd _ _
        rw [Rat.divInt_eq_div] at hdvd
        rw [← hq] at hdvd
        have : (q.den : ℤ) ∣ ((10 ^ b.length : ℕ) : ℤ) := by exact_mod_cast hdvd
        exact_mod_cast this

theorem numParse_den_dvd (s : List Nat) (q : Rat)
    (h : numParse s = some q) : q.den ∣ 10 ^ q.den := by
  have hex : ∃ k, q.den ∣ 10 ^ k := by
    cases s with
    | nil => simp [numParse] at h
    | cons c cs =>
      rw [numParse] at h
      by_cases hc : c = 45
      · rw [if_pos hc] at h
        cases hn : numParseNonneg cs with
        | none => rw [hn] at h; simp at h
        | some q0 =>
          rw [hn] at h
          simp only [Option.map_some', Option.some.injEq] at h
          obtain ⟨k, hk⟩ := numParseNonneg_den_dvd cs q0 hn
          exact ⟨k, by rw [← h, Rat.neg_den]; exact hk⟩
      · rw [if_neg hc] at h
        exact numParseNonneg_den_dvd _ q h
  obtain ⟨k, hk⟩ := hex
  exact dvd_ten_pow_self q.den k hk

/-! ## Rendering a rational and parsing it back -/

theorem decExpOf_spec (d : Nat) (hd2 : 2 ≤ d) (h : d ∣ 10 ^ d) :
    d ∣ 10 ^ decExpOf d ∧ 1 ≤ decExpOf d := by
  have hmem : d ∈ List.range (d + 1) := List.mem_range.mpr (by omega)
  have hsome : (((List.range (d + 1)).find? (fun k => 10 ^ k % d = 0))).isSome := by
    rw [List.find?_isSome]
    refine ⟨d, hmem, ?_⟩
    simp [Nat.mod_eq_zero_of_dvd h]
  obtain ⟨k0, hk0⟩ := Option.isSome_iff_exists.mp hsome
  have hp := List.find?_some hk0
  simp only [decide_eq_true_eq] at hp
  have hdvd : d ∣ 10 ^ k0 := Nat.dvd_of_mod_eq_zero hp
  have hde : decExpOf d = k0 := by rw [decExpOf, hk0]; rfl
  refine ⟨hde ▸ hdvd, ?_⟩
  rw [hde]
  by_contra hk1
  have hk00 : k0 = 0 := by omega
  rw [hk00] at hp
  rw [pow_zero, Nat.mod_eq_of_lt (by omega)] at hp
  omega

theorem numParseNonneg_natToDigits (n : Nat) :
    numParseNonneg (natToDigits n) = some ((n : ℚ)) := by
  have hnd : (46 : Nat) ∉ natToDigits n := by
    intro hm
    have := natToDigits_mem n 46 hm
    omega
  rw [numParseNonneg]
  simp [splitDot_no_dot _ hnd, parseDigits_natToDigits]

theorem numParseNonneg_core (k m : Nat) (hk : 1 ≤ k) :
    numParseNonneg (natToDigits (m / 10 ^ k) ++ 46 :: fracDigitsPad k (m % 10 ^ k))
      = some ((m : ℚ) / (10 : ℚ) ^ k) := by
  have hnd : (46 : Nat) ∉ natToDigits (m / 10 ^ k) := by
    intro hm
    have := natToDigits_mem _ _ hm
    omega
  have hmod : m % 10 ^ k < 10 ^ k := Nat.mod_lt _ (Nat.pos_pow_of_pos k (by norm_num))
  rw [numParseNonneg]
  simp only [splitDot_append _ _ hnd, parseDigits_natToDigits, parseDigits_fracDigitsPad,
    fracDigitsPad_length k _ hk hmod, Option.some.injEq]
  have h10 : ((10 : ℚ) ^ k) ≠ 0 := by positivity
  have hdm : 10 ^ k * (m / 10 ^ k) + m % 10 ^ k = m := Nat.div_add_mod m (10 ^ k)
  have hc := congrArg (fun n : ℕ => (n : ℚ)) hdm
  push_cast at hc
  field_simp
  linarith

theorem numParse_dash (l : List Nat) :
    numParse (45 :: l) = (numParseNonneg l).map (fun q => -q) := by
  simp [numParse]

theorem numParse_head_ne_dash (s : List Nat) (c : Nat) (cs : List Nat)
    (hs : s = c :: cs) (hc : c ≠ 45) : numParse s = numParseNonneg s := by
  rw [hs, numParse, if_neg hc]

theorem numParse_renderRat (q : Rat) (h : q.den ∣ 10 ^ q.den) :
    numParse (renderRat q) = some q := by
  have hq1 : q.den = 1 → ((q.num : ℤ) : ℚ) = q := by
    intro hden
    have hnd := Rat.num_div_den q
    rw [hden] at hnd
    simpa using hnd
  by_cases hden : q.den = 1
  · rw [renderRat, if_pos hden]
    by_cases hneg : q.num < 0
    · rw [intToDigits, if_pos hneg]
      rw [numParse, if_pos rfl, numParseNonneg_natToDigits]
      have habs : ((q.num.natAbs : ℤ) : ℚ) = -((q.num : ℤ) : ℚ) := by
        rw [Int.ofNat_natAbs_of_nonpos (by omega)]
        push_cast
        ring
      simp only [Option.map_some', Option.some.injEq]
      rw [show ((q.num.natAbs : ℕ) : ℚ) = ((q.num.natAbs : ℤ) : ℚ) from (Int.cast_natCast q.num.natAbs).symm]
      rw [habs, hq1 hden]
      ring
    · rw [intToDigits, if_neg hneg]
      obtain ⟨c, cs, hc⟩ := List.exists_cons_of_ne_nil (natToDigits_ne_nil q.num.natAbs)
      have hcd : 48 ≤ c := by
        have := natToDigits_mem q.num.natAbs c (by rw [hc]; exact List.mem_cons_self c cs)
        omega
      rw [numParse_head_ne_dash _ c cs hc (by omega), numParseNonneg_natToDigits]
      have habs : ((q.num.natAbs : ℤ) : ℚ) = ((q.num : ℤ) : ℚ) := by
        rw [Int.natAbs_of_nonneg (by omega)]
      rw [show ((q.num.natAbs : ℕ) : ℚ) = ((q.num.natAbs : ℤ) : ℚ) from (Int.cast_natCast q.num.natAbs).symm]
      rw [habs, hq1 hden]
  · have hd2 : 2 ≤ q.den := by
      have := q.den_pos
      omega
    obtain ⟨hdvd, hk1⟩ := decExpOf_spec q.den hd2 h
    have hmden : q.num.natAbs * 10 ^ decExpOf q.den / q.den * q.den
        = q.num.natAbs * 10 ^ decExpOf q.den :=
      Nat.div_mul_cancel (Dvd.dvd.mul_left hdvd _)
    have hvalue : ((q.num.natAbs * 10 ^ decExpOf q.den / q.den : ℕ) : ℚ)
        / (10 : ℚ) ^ decExpOf q.den = ((q.num.natAbs : ℕ) : ℚ) / ((q.den : ℕ) : ℚ) := by
      have h10 : ((10 : ℚ) ^ decExpOf q.den) ≠ 0 := by positivity
      have hdq : ((q.den : ℕ) : ℚ) ≠ 0 := by
        simp only [ne_eq, Nat.cast_eq_zero]
        omega
      have hc := congrArg (fun n : ℕ => (n : ℚ)) hmden
      push_cast at hc
      field_simp
      linarith
    have habs : ((q.num.natAbs : ℕ) : ℚ) / ((q.den : ℕ) : ℚ)
        = if q.num < 0 then -q else q := by
      by_cases hneg : q.num < 0
      · rw [if_pos hneg]
        rw [show ((q.num.natAbs : ℕ) : ℚ) = ((q.num.natAbs : ℤ) : ℚ) from (Int.cast_natCast q.num.natAbs).symm]
        rw [Int.ofNat_natAbs_of_nonpos (by omega)]
        have := Rat.num_div_den q
        push_cast
        rw [show -((q.num : ℚ)) / ((q.den : ℚ)) = -((q.num : ℚ) / ((q.den : ℚ))) by ring]
        rw [this]
      · rw [if_neg hneg]
        rw [show ((q.num.natAbs : ℕ) : ℚ) = ((q.num.natAbs : ℤ) : ℚ) from (Int.cast_natCast q.num.natAbs).symm]
        rw [Int.natAbs_of_nonneg (by omega)]
        exact Rat.num_div_den q
    simp only [renderRat, if_neg hden]
    by_cases hneg : q.num < 0
    · rw [if_pos hneg]
      rw [List.append_assoc, List.singleton_append]
      rw [numParse_dash]
      rw [numParseNonneg_core _ _ hk1]
      rw [hvalue, habs, if_pos hneg]
      simp
    · rw [if_neg hneg]
      rw [List.nil_append]
      obtain ⟨c, cs, hc⟩ := List.exists_cons_of_ne_nil
        (natToDigits_ne_nil (q.num.natAbs * 10 ^ decExpOf q.den / q.den / 10 ^ decExpOf q.den))
      have hcd : 48 ≤ c := by
        have := natToDigits_mem _ c (by rw [hc]; exact List.mem_cons_self c cs)
        omega
      rw [numParse_head_ne_dash _ c (cs ++ 46 :: fracDigitsPad (decExpOf q.den)
        (q.num.natAbs * 10 ^ decExpOf q.den / q.den % 10 ^ decExpOf q.den))
        (by rw [hc]; simp) (by omega)]
      rw [numParseNonneg_core _ _ hk1]
      rw [hvalue, habs, if_neg hneg]

/-! ## UTF-8 single-character roundtrips -/

theorem utf8EncodeChar_ne_nil (c : Nat) (p : List Nat)
    (h : utf8EncodeChar c = some p) : p ≠ [] := by
  rw [utf8EncodeChar] at h
  by_cases h1 : c < 0x80
  · rw [if_pos h1] at h
    simp only [Option.some.injEq] at h
    rw [← h]; simp
  · rw [if_neg h1] at h
    by_cases h2 : c < 0x800
    · rw [if_pos h2] at h
      simp only [Option.some.injEq] at h
      rw [← h]; simp
    · rw [if_neg h2] at h
      by_cases h3 : c < 0x10000
      · rw [if_pos h3] at h
        by_cases h4 : 0xD800 ≤ c ∧ c < 0xE000
        · rw [if_pos h4] at h; simp at h
        · rw [if_neg h4] at h
          simp only [Option.some.injEq] at h
          rw [← h]; simp
      · rw [if_neg h3] at h
        by_cases h5 : c < 0x110000
        · rw [if_pos h5] at h
          simp only [Option.some.injEq] at h
          rw [← h]; simp
        · rw [if_neg h5] at h; simp at h

theorem utf8DecodeOne_encodeChar (c : Nat) (p : List Nat)
    (h : utf8EncodeChar c = some p) (r : List Nat) :
    utf8DecodeOne (p ++ r) = some (c, r) := by
  rw [utf8EncodeChar] at h
  by_cases h1 : c < 0x80
  · rw [if_pos h1] at h
    simp only [Option.some.injEq] at h
    subst h
    simp only [List.cons_append, List.nil_append, utf8DecodeOne, if_pos h1]
  · rw [if_neg h1] at h
    by_cases h2 : c < 0x800
    · rw [if_pos h2] at h
      simp only [Option.some.injEq] at h
      subst h
      have e1 : ¬ (0xC0 + c / 64 < 0x80) := by omega
      have e2 : ¬ (0xC0 + c / 64 < 0xC2) := by omega
      have e3 : 0xC0 + c / 64 < 0xE0 := by omega
      have e4 : 0x80 ≤ 0x80 + c % 64 ∧ 0x80 + c % 64 < 0xC0 := by omega
      simp only [List.cons_append, List.nil_append, utf8DecodeOne,
        if_neg e1, if_neg e2, if_pos e3, if_pos e4, Option.some.injEq, Prod.mk.injEq]
      constructor
      · omega
      · trivial
    · rw [if_neg h2] at h
      by_cases h3 : c < 0x10000
      · rw [if_pos h3] at h
        by_cases h4 : 0xD800 ≤ c ∧ c < 0xE000
        · rw [if_pos h4] at h; simp at h
        · rw [if_neg h4] at h
          simp only [Option.some.injEq] at h
          subst h
          have e1 : ¬ (0xE0 + c / 4096 < 0x80) := by omega
          have e2 : ¬ (0xE0 + c / 4096 < 0xC2) := by omega
          have e3 : ¬ (0xE0 + c / 4096 < 0xE0) := by omega
          have e4 : 0xE0 + c / 4096 < 0xF0 := by omega
          have e5 : (if 0xE0 + c / 4096 = 0xE0 then 0xA0 ≤ 0x80 + c / 64 % 64 ∧ 0x80 + c / 64 % 64 < 0xC0
              else if 0xE0 + c / 4096 = 0xED then 0x80 ≤ 0x80 + c / 64 % 64 ∧ 0x80 + c / 64 % 64 < 0xA0
              else 0x80 ≤ 0x80 + c / 64 % 64 ∧ 0x80 + c / 64 % 64 < 0xC0)
              ∧ (0x80 ≤ 0x80 + c % 64 ∧ 0x80 + c % 64 < 0xC0) := by
            constructor
            · by_cases hE0 : 0xE0 + c / 4096 = 0xE0
              · rw [if_pos hE0]; omega
              · rw [if_neg hE0]
                by_cases hED : 0xE0 + c / 4096 = 0xED
                · rw [if_pos hED]; omega
                · rw [if_neg hED]; omega
            · omega
          simp only [List.cons_append, List.nil_append, utf8DecodeOne,
            if_neg e1, if_neg e2, if_neg e3, if_pos e4, if_pos e5,
            Option.some.injEq, Prod.mk.injEq]
          constructor
          · omega
          · trivial
      · rw [if_neg h3] at h
        by_cases h5 : c < 0x110000
        · rw [if_pos h5] at h
          simp only [Option.some.injEq] at h
          subst h
          have e1 : ¬ (0xF0 + c / 262144 < 0x80) := by omega
          have e2 : ¬ (0xF0 + c / 262144 < 0xC2) := by omega
          have e3 : ¬ (0xF0 + c / 262144 < 0xE0) := by omega
          have e4 : ¬ (0xF0 + c / 262144 < 0xF0) := by omega
          have e5 : 0xF0 + c / 262144 < 0xF5 := by omega
          have e6 : (if 0xF0 + c / 262144 = 0xF0 then 0x90 ≤ 0x80 + c / 4096 % 64 ∧ 0x80 + c / 4096 % 64 < 0xC0
              else if 0xF0 + c / 262144 = 0xF4 then 0x80 ≤ 0x80 + c / 4096 % 64 ∧ 0x80 + c / 4096 % 64 < 0x90
              else 0x80 ≤ 0x80 + c / 4096 % 64 ∧ 0x80 + c / 4096 % 64 < 0xC0)
              ∧ (0x80 ≤ 0x80 + c / 64 % 64 ∧ 0x80 + c / 64 % 64 < 0xC0)
              ∧ (0x80 ≤ 0x80 + c % 64 ∧ 0x80 + c % 64 < 0xC0) := by
            refine ⟨?_, by omega, by omega⟩
            by_cases hF0 : 0xF0 + c / 262144 = 0xF0
            · rw [if_pos hF0]; omega
            · rw [if_neg hF0]
              by_cases hF4 : 0xF0 + c / 262144 = 0xF4
              · rw [if_pos hF4]; omega
              · rw [if_neg hF4]; omega
          simp only [List.cons_append, List.nil_append, utf8DecodeOne,
            if_neg e1, if_neg e2, if_neg e3, if_neg e4, if_pos e5, if_pos e6,
            Option.some.injEq, Prod.mk.injEq]
          constructor
          · omega
          · trivial
        · rw [if_neg h5] at h; simp at h

theorem utf8EncodeChar_decodeOne (l : List Nat) (c : Nat) (r : List Nat)
    (h : utf8DecodeOne l = some (c, r)) :
    ∃ p, utf8EncodeChar c = some p ∧ l = p ++ r := by
  cases l with
  | nil => simp [utf8DecodeOne] at h
  | cons b rest =>
    simp only [utf8DecodeOne] at h
    by_cases h1 : b < 0x80
    · rw [if_pos h1] at h
      simp only [Option.some.injEq, Prod.mk.injEq] at h
      obtain ⟨rfl, rfl⟩ := h
      refine ⟨[b], ?_, by simp⟩
      rw [utf8EncodeChar, if_pos h1]
    · rw [if_neg h1] at h
      by_cases h2 : b < 0xC2
      · rw [if_pos h2] at h; simp at h
      · rw [if_neg h2] at h
        by_cases h3 : b < 0xE0
        · rw [if_pos h3] at h
          cases rest with
          | nil => simp at h
          | cons b1 r1 =>
            have hred : (match b1 :: r1 with
                | b1 :: r => if 0x80 ≤ b1 ∧ b1 < 0xC0 then
                    some ((b - 0xC0) * 64 + (b1 - 0x80), r) else none
                | [] => none)
                = if 0x80 ≤ b1 ∧ b1 < 0xC0 then
                    some ((b - 0xC0) * 64 + (b1 - 0x80), r1) else none := rfl
            rw [hred] at h
            by_cases h4 : 0x80 ≤ b1 ∧ b1 < 0xC0
            · rw [if_pos h4] at h
              simp only [Option.some.injEq, Prod.mk.injEq] at h
              obtain ⟨rfl, rfl⟩ := h
              refine ⟨[b, b1], ?_, by simp⟩
              rw [utf8EncodeChar, if_neg (by omega), if_pos (by omega)]
              simp only [Option.some.injEq, List.cons.injEq]
              exact ⟨by omega, by omega, trivial⟩
            · rw [if_neg h4] at h; simp at h
        · rw [if_neg h3] at h
          by_cases h5 : b < 0xF0
          · rw [if_pos h5] at h
            cases rest with
            | nil => simp at h
            | cons b1 r1 =>
              cases r1 with
              | nil => simp at h
              | cons b2 r2 =>
                have hred : (match b1 :: b2 :: r2 with
                    | b1 :: b2 :: r =>
                      if (if b = 0xE0 then 0xA0 ≤ b1 ∧ b1 < 0xC0
                          else if b = 0xED then 0x80 ≤ b1 ∧ b1 < 0xA0
                          else 0x80 ≤ b1 ∧ b1 < 0xC0) ∧ (0x80 ≤ b2 ∧ b2 < 0xC0) then
                        some ((b - 0xE0) * 4096 + (b1 - 0x80) * 64 + (b2 - 0x80), r)
                      else none
                    | _ => none)
                    = if (if b = 0xE0 then 0xA0 ≤ b1 ∧ b1 < 0xC0
                          else if b = 0xED then 0x80 ≤ b1 ∧ b1 < 0xA0
                          else 0x80 ≤ b1 ∧ b1 < 0xC0) ∧ (0x80 ≤ b2 ∧ b2 < 0xC0) then
                        some ((b - 0xE0) * 4096 + (b1 - 0x80) * 64 + (b2 - 0x80), r2)
                      else none := rfl
                rw [hred] at h
                by_cases h6 : (if b = 0xE0 then 0xA0 ≤ b1 ∧ b1 < 0xC0
                    else if b = 0xED then 0x80 ≤ b1 ∧ b1 < 0xA0
                    else 0x80 ≤ b1 ∧ b1 < 0xC0) ∧ (0x80 ≤ b2 ∧ b2 < 0xC0)
                · rw [if_pos h6] at h
                  simp only [Option.some.injEq, Prod.mk.injEq] at h
                  obtain ⟨rfl, rfl⟩ := h
                  obtain ⟨hcond, hb2⟩ := h6
                  refine ⟨[b, b1, b2], ?_, by simp⟩
                  by_cases hE0 : b = 0xE0
                  · rw [if_pos hE0] at hcond
                    subst hE0
                    rw [utf8EncodeChar, if_neg (by omega), if_neg (by omega),
                      if_pos (by omega), if_neg (by omega)]
                    simp only [Option.some.injEq, List.cons.injEq]
                    exact ⟨by omega, by omega, by omega, trivial⟩
                  · rw [if_neg hE0] at hcond
                    by_cases hED : b = 0xED
                    · rw [if_pos hED] at hcond
                      subst hED
                      rw [utf8EncodeChar, if_neg (by omega), if_neg (by omega),
                        if_pos (by omega), if_neg (by omega)]
                      simp only [Option.some.injEq, List.cons.injEq]
                      exact ⟨by omega, by omega, by omega, trivial⟩
                    · rw [if_neg hED] at hcond
                      rw [utf8EncodeChar, if_neg (by omega), if_neg (by omega),
                        if_pos (by omega), if_neg (by omega)]
                      simp only [Option.some.injEq, List.cons.injEq]
                      exact ⟨by omega, by omega, by omega, trivial⟩
                · rw [if_neg h6] at h; simp at h
          · rw [if_neg h5] at h
            by_cases h7 : b < 0xF5
            · rw [if_pos h7] at h
              cases rest with
              | nil => simp at h
              | cons b1 r1 =>
                cases r1 with
                | nil => simp at h
                | cons b2 r2 =>
                  cases r2 with
                  | nil => simp at h
                  | cons b3 r3 =>
                    have hred : (match b1 :: b2 :: b3 :: r3 with
                        | b1 :: b2 :: b3 :: r =>
                          if (if b = 0xF0 then 0x90 ≤ b1 ∧ b1 < 0xC0
                              else if b = 0xF4 then 0x80 ≤ b1 ∧ b1 < 0x90
                              else 0x80 ≤ b1 ∧ b1 < 0xC0) ∧ (0x80 ≤ b2 ∧ b2 < 0xC0)
                                ∧ (0x80 ≤ b3 ∧ b3 < 0xC0) then
                            some ((b - 0xF0) * 262144 + (b1 - 0x80) * 4096
                              + (b2 - 0x80) * 64 + (b3 - 0x80), r)
                          else none
                        | _ => none)
                        = if (if b = 0xF0 then 0x90 ≤ b1 ∧ b1 < 0xC0
                              else if b = 0xF4 then 0x80 ≤ b1 ∧ b1 < 0x90
                              else 0x80 ≤ b1 ∧ b1 < 0xC0) ∧ (0x80 ≤ b2 ∧ b2 < 0xC0)
                                ∧ (0x80 ≤ b3 ∧ b3 < 0xC0) then
                            some ((b - 0xF0) * 262144 + (b1 - 0x80) * 4096
                              + (b2 - 0x80) * 64 + (b3 - 0x80), r3)
                          else none := rfl
                    rw [hred] at h
                    by_cases h8 : (if b = 0xF0 then 0x90 ≤ b1 ∧ b1 < 0xC0
                        else if b = 0xF4 then 0x80 ≤ b1 ∧ b1 < 0x90
                        else 0x80 ≤ b1 ∧ b1 < 0xC0) ∧ (0x80 ≤ b2 ∧ b2 < 0xC0)
                          ∧ (0x80 ≤ b3 ∧ b3 < 0xC0)
                    · rw [if_pos h8] at h
                      simp only [Option.some.injEq, Prod.mk.injEq] at h
                      obtain ⟨rfl, rfl⟩ := h
                      obtain ⟨hcond, hb2, hb3⟩ := h8
                      refine ⟨[b, b1, b2, b3], ?_, by simp⟩
                      by_cases hF0 : b = 0xF0
                      · rw [if_pos hF0] at hcond
                        subst hF0
                        rw [utf8EncodeChar, if_neg (by omega), if_neg (by omega),
                          if_neg (by omega), if_pos (by omega)]
                        simp only [Option.some.injEq, List.cons.injEq]
                        exact ⟨by omega, by omega, by omega, by omega, trivial⟩
                      · rw [if_neg hF0] at hcond
                        by_cases hF4 : b = 0xF4
                        · rw [if_pos hF4] at hcond
                          subst hF4
                          rw [utf8EncodeChar, if_neg (by omega), if_neg (by omega),
                            if_neg (by omega), if_pos (by omega)]
                          simp only [Option.some.injEq, List.cons.injEq]
                          exact ⟨by omega, by omega, by omega, by omega, trivial⟩
                        · rw [if_neg hF4] at hcond
                          rw [utf8EncodeChar, if_neg (by omega), if_neg (by omega),
                            if_neg (by omega), if_pos (by omega)]
                          simp only [Option.some.injEq, List.cons.injEq]
                          exact ⟨by omega, by omega, by omega, by omega, trivial⟩
                    · rw [if_neg h8] at h; simp at h
            · rw [if_neg h7] at h; simp at h

/-! ## Whole-stream decoding and encoding -/

theorem utf8DecodeOne_shorter (l : List Nat) (c : Nat) (r : List Nat)
    (h : utf8DecodeOne l = some (c, r)) : r.length < l.length := by
  obtain ⟨p, hp, rfl⟩ := utf8EncodeChar_decodeOne l c r h
  have hne := utf8EncodeChar_ne_nil c p hp
  have : 1 ≤ p.length := by
    cases p with
    | nil => exact absurd rfl hne
    | cons a l2 => simp
  simp [List.length_append]
  omega

theorem utf8DecodeAux_nil (fuel : Nat) : utf8DecodeAux fuel [] = some [] := by
  cases fuel <;> rfl

theorem utf8DecodeAux_fuel : ∀ n : Nat, ∀ l : List Nat, l.length ≤ n →
    ∀ fuel fuel', l.length ≤ fuel → l.length ≤ fuel' →
    utf8DecodeAux fuel l = utf8DecodeAux fuel' l := by
  intro n
  induction n with
  | zero =>
    intro l hln fuel fuel' h1 h2
    have : l = [] := List.eq_nil_of_length_eq_zero (by omega)
    subst this
    rw [utf8DecodeAux_nil, utf8DecodeAux_nil]
  | succ n ihn =>
    intro l hln fuel fuel' h1 h2
    cases l with
    | nil => rw [utf8DecodeAux_nil, utf8DecodeAux_nil]
    | cons b rest =>
      have hlb : (b :: rest).length = rest.length + 1 := by simp
      obtain ⟨f1, rfl⟩ : ∃ f1, fuel = f1 + 1 := ⟨fuel - 1, by omega⟩
      obtain ⟨f2, rfl⟩ : ∃ f2, fuel' = f2 + 1 := ⟨fuel' - 1, by omega⟩
      cases hdec : utf8DecodeOne (b :: rest) with
      | none =>
        have e1 : utf8DecodeAux (f1 + 1) (b :: rest) = none := by
          simp [utf8DecodeAux, hdec]
        have e2 : utf8DecodeAux (f2 + 1) (b :: rest) = none := by
          simp [utf8DecodeAux, hdec]
        rw [e1, e2]
      | some cr =>
        obtain ⟨c, r⟩ := cr
        have hlen := utf8DecodeOne_shorter _ _ _ hdec
        rw [hlb] at hlen
        have e1 : utf8DecodeAux (f1 + 1) (b :: rest)
            = (utf8DecodeAux f1 r).map (fun cs => c :: cs) := by
          simp only [utf8DecodeAux, hdec]
          cases utf8DecodeAux f1 r <;> rfl
        have e2 : utf8DecodeAux (f2 + 1) (b :: rest)
            = (utf8DecodeAux f2 r).map (fun cs => c :: cs) := by
          simp only [utf8DecodeAux, hdec]
          cases utf8DecodeAux f2 r <;> rfl
        rw [e1, e2, ihn r (by simp at hln; omega) f1 f2 (by simp at h1; omega)
          (by simp at h2; omega)]

theorem utf8Decode_step (l : List Nat) (c : Nat) (r : List Nat)
    (h : utf8DecodeOne l = some (c, r)) :
    utf8Decode l = (utf8Decode r).map (fun cs => c :: cs) := by
  cases l with
  | nil => simp [utf8DecodeOne] at h
  | cons b rest =>
    have hlen := utf8DecodeOne_shorter _ _ _ h
    simp only [List.length_cons] at hlen
    have e1 : utf8Decode (b :: rest)
        = (utf8DecodeAux rest.length r).map (fun cs => c :: cs) := by
      rw [utf8Decode]
      simp only [List.length_cons, utf8DecodeAux, h]
      cases utf8DecodeAux rest.length r <;> rfl
    rw [e1, utf8Decode,
      utf8DecodeAux_fuel r.length r le_rfl rest.length r.length (by omega) le_rfl]

theorem utf8Decode_encodeChars (cs out : List Nat)
    (h : encodeChars Encoding.utf8 cs = some out) : utf8Decode out = some cs := by
  induction cs generalizing out with
  | nil =>
    rw [encodeChars, List.mapM_nil] at h
    simp at h
    subst h
    rfl
  | cons c rest ih =>
    rw [encodeChars, List.mapM_cons] at h
    cases hc : charEncode Encoding.utf8 c with
    | none => rw [hc] at h; simp at h
    | some p =>
      cases hrest : rest.mapM (charEncode Encoding.utf8) with
      | none => rw [hc, hrest] at h; simp at h
      | some ps =>
        rw [hc, hrest] at h
        simp only [Option.map_eq_some', Option.bind_some, Option.bind_eq_bind] at h
        obtain ⟨l2, hl2, hout⟩ := h
        simp only [Option.bind_some, Option.some_bind, Option.pure_def,
          Option.some.injEq] at hl2
        have hcp : utf8EncodeChar c = some p := hc
        have hstep := utf8DecodeOne_encodeChar c p hcp ps.flatten
        have hih : utf8Decode ps.flatten = some rest := by
          apply ih
          rw [encodeChars, hrest]
          rfl
        rw [← hout, ← hl2]
        simp only [List.flatten_cons]
        rw [utf8Decode_step _ c ps.flatten hstep, hih]
        rfl

/-! ## cp1252 table facts -/

theorem cp1252Table_ranges : ∀ p ∈ cp1252Table,
    0x80 ≤ p.1 ∧ p.1 < 0xA0 ∧ 0x100 ≤ p.2 := by decide

theorem cp1252Table_find_snd : ∀ p ∈ cp1252Table,
    cp1252Table.find? (fun q => q.2 == p.2) = some p := by decide

theorem cp1252Table_find_fst : ∀ p ∈ cp1252Table,
    cp1252Table.find? (fun q => q.1 == p.1) = some p := by decide

theorem cp1252_encode_decode (b c : Nat) (h : cp1252DecodeByte b = some c) :
    cp1252EncodeChar c = some b := by
  rw [cp1252DecodeByte] at h
  by_cases h1 : b < 0x80
  · rw [if_pos h1] at h
    simp only [Option.some.injEq] at h
    subst h
    rw [cp1252EncodeChar, if_pos h1]
  · rw [if_neg h1] at h
    by_cases h2 : 0xA0 ≤ b ∧ b < 0x100
    · rw [if_pos h2] at h
      simp only [Option.some.injEq] at h
      subst h
      rw [cp1252EncodeChar, if_neg h1, if_pos h2]
    · rw [if_neg h2] at h
      cases hf : cp1252Table.find? (fun q => q.1 == b) with
      | none => rw [hf] at h; simp at h
      | some p =>
        rw [hf] at h
        simp only [Option.map_some', Option.some.injEq] at h
        subst h
        have hmem := List.mem_of_find?_eq_some hf
        have hpb := List.find?_some hf
        simp only [beq_iff_eq] at hpb
        have hr := cp1252Table_ranges p hmem
        rw [cp1252EncodeChar, if_neg (by omega), if_neg (by omega),
          cp1252Table_find_snd p hmem]
        simp [hpb]

theorem cp1252_decode_encode (c b : Nat) (h : cp1252EncodeChar c = some b) :
    cp1252DecodeByte b = some c := by
  rw [cp1252EncodeChar] at h
  by_cases h1 : c < 0x80
  · rw [if_pos h1] at h
    simp only [Option.some.injEq] at h
    subst h
    rw [cp1252DecodeByte, if_pos h1]
  · rw [if_neg h1] at h
    by_cases h2 : 0xA0 ≤ c ∧ c < 0x100
    · rw [if_pos h2] at h
      simp only [Option.some.injEq] at h
      subst h
      rw [cp1252DecodeByte, if_neg h1, if_pos h2]
    · rw [if_neg h2] at h
      cases hf : cp1252Table.find? (fun q => q.2 == c) with
      | none => rw [hf] at h; simp at h
      | some p =>
        rw [hf] at h
        simp only [Option.map_some', Option.some.injEq] at h
        subst h
        have hmem := List.mem_of_find?_eq_some hf
        have hpc := List.find?_some hf
        simp only [beq_iff_eq] at hpc
        have hr := cp1252Table_ranges p hmem
        rw [cp1252DecodeByte, if_neg (by omega), if_neg (by omega),
          cp1252Table_find_fst p hmem]
        simp [hpc]

/-! ## Byte-level roundtrips for the single-byte encodings -/

theorem byteDecode_encode (e : Encoding) (b c : Nat) (h : byteDecode e b = some c) :
    charEncode e c = some [b] := by
  cases e with
  | utf8 => simp [byteDecode] at h
  | cp1252 =>
    simp only [byteDecode] at h
    simp [charEncode, cp1252_encode_decode b c h]
  | latin1 =>
    simp only [byteDecode] at h
    by_cases hb : b < 0x100
    · rw [if_pos hb] at h
      simp only [Option.some.injEq] at h
      subst h
      simp [charEncode, hb]
    · rw [if_neg hb] at h
      simp at h
  | iso8859_1 =>
    simp only [byteDecode] at h
    by_cases hb : b < 0x100
    · rw [if_pos hb] at h
      simp only [Option.some.injEq] at h
      subst h
      simp [charEncode, hb]
    · rw [if_neg hb] at h
      simp at h

theorem charEncode_byteDecode (e : Encoding) (he : e ≠ Encoding.utf8) (c : Nat)
    (bs : List Nat) (h : charEncode e c = some bs) :
    ∃ b, bs = [b] ∧ byteDecode e b = some c := by
  cases e with
  | utf8 => exact absurd rfl he
  | cp1252 =>
    simp only [charEncode] at h
    cases hc : cp1252EncodeChar c with
    | none => rw [hc] at h; simp at h
    | some b =>
      rw [hc] at h
      simp only [Option.map_some', Option.some.injEq] at h
      exact ⟨b, h.symm, by simp [byteDecode, cp1252_decode_encode c b hc]⟩
  | latin1 =>
    simp only [charEncode] at h
    by_cases hc : c < 0x100
    · rw [if_pos hc] at h
      simp only [Option.some.injEq] at h
      exact ⟨c, h.symm, by simp [byteDecode, hc]⟩
    · rw [if_neg hc] at h
      simp at h
  | iso8859_1 =>
    simp only [charEncode] at h
    by_cases hc : c < 0x100
    · rw [if_pos hc] at h
      simp only [Option.some.injEq] at h
      exact ⟨c, h.symm, by simp [byteDecode, hc]⟩
    · rw [if_neg hc] at h
      simp at h

/-! ## Decode and encode invert each other, all four encodings -/

theorem encodeChars_cons (e : Encoding) (c : Nat) (cs : List Nat) (p out : List Nat)
    (hc : charEncode e c = some p) (hcs : encodeChars e cs = some out) :
    encodeChars e (c :: cs) = some (p ++ out) := by
  rw [encodeChars] at hcs ⊢
  cases hrest : cs.mapM (charEncode e) with
  | none => rw [hrest] at hcs; simp at hcs
  | some ps =>
    rw [hrest] at hcs
    simp only [Option.map_some', Option.some.injEq] at hcs
    rw [List.mapM_cons, hc, hrest]
    simp [hcs]

theorem encodeChars_nil (e : Encoding) : encodeChars e [] = some [] := by
  rw [encodeChars, List.mapM_nil]
  rfl

theorem encodeChars_utf8Decode : ∀ n : Nat, ∀ bs cs : List Nat, bs.length ≤ n →
    utf8Decode bs = some cs → encodeChars Encoding.utf8 cs = some bs := by
  intro n
  induction n with
  | zero =>
    intro bs cs hbn h
    have : bs = [] := List.eq_nil_of_length_eq_zero (by omega)
    subst this
    have : cs = [] := by
      have : utf8Decode [] = some [] := rfl
      rw [this] at h
      simpa using h.symm
    subst this
    exact encodeChars_nil _
  | succ n ihn =>
    intro bs cs hbn h
    cases bs with
    | nil =>
      have : cs = [] := by
        have h0 : utf8Decode [] = some [] := rfl
        rw [h0] at h
        simpa using h.symm
      subst this
      exact encodeChars_nil _
    | cons b rest =>
      cases hdec : utf8DecodeOne (b :: rest) with
      | none =>
        have : utf8Decode (b :: rest) = none := by
          rw [utf8Decode]
          simp [utf8DecodeAux, hdec]
        rw [this] at h
        simp at h
      | some cr =>
        obtain ⟨c, r⟩ := cr
        have hstep := utf8Decode_step _ _ _ hdec
        rw [hstep] at h
        cases hr : utf8Decode r with
        | none => rw [hr] at h; simp at h
        | some cs' =>
          rw [hr] at h
          simp only [Option.map_some', Option.some.injEq] at h
          subst h
          have hshort := utf8DecodeOne_shorter _ _ _ hdec
          simp only [List.length_cons] at hshort
          simp only [List.length_cons] at hbn
          have hih := ihn r cs' (by omega) hr
          obtain ⟨p, hp, heq⟩ := utf8EncodeChar_decodeOne _ _ _ hdec
          rw [heq]
          exact encodeChars_cons Encoding.utf8 c cs' p r hp hih

theorem decodeBytes_single (e : Encoding) (he : e ≠ Encoding.utf8) (bs : List Nat) :
    decodeBytes e bs = bs.mapM (byteDecode e) := by
  cases e with
  | utf8 => exact absurd rfl he
  | cp1252 => rfl
  | latin1 => rfl
  | iso8859_1 => rfl

theorem encodeChars_decodeBytes (e : Encoding) (bs cs : List Nat)
    (h : decodeBytes e bs = some cs) : encodeChars e cs = some bs := by
  by_cases he : e = Encoding.utf8
  · subst he
    exact encodeChars_utf8Decode bs.length bs cs le_rfl h
  · rw [decodeBytes_single e he] at h
    induction bs generalizing cs with
    | nil =>
      rw [List.mapM_nil] at h
      have : cs = [] := by simpa using h.symm
      subst this
      exact encodeChars_nil _
    | cons b rest ih =>
      rw [List.mapM_cons] at h
      cases hb : byteDecode e b with
      | none => rw [hb] at h; simp at h
      | some c =>
        cases hrest : rest.mapM (byteDecode e) with
        | none => rw [hb, hrest] at h; simp at h
        | some cs' =>
          rw [hb, hrest] at h
          have hcs : cs = c :: cs' := by simpa using h.symm
          subst hcs
          have hih := ih cs' hrest
          have hbe := byteDecode_encode e b c hb
          have := encodeChars_cons e c cs' [b] rest hbe hih
          simpa using this

theorem decodeBytes_encodeChars (e : Encoding) (cs out : List Nat)
    (h : encodeChars e cs = some out) : decodeBytes e out = some cs := by
  by_cases he : e = Encoding.utf8
  · subst he
    exact utf8Decode_encodeChars cs out h
  · rw [decodeBytes_single e he]
    induction cs generalizing out with
    | nil =>
      rw [encodeChars, List.mapM_nil] at h
      simp at h
      subst h
      rfl
    | cons c rest ih =>
      rw [encodeChars, List.mapM_cons] at h
      cases hc : charEncode e c with
      | none => rw [hc] at h; simp at h
      | some p =>
        cases hrest : rest.mapM (charEncode e) with
        | none => rw [hc, hrest] at h; simp at h
        | some ps =>
          rw [hc, hrest] at h
          obtain ⟨b, hbs, hbd⟩ := charEncode_byteDecode e he c p hc
          subst hbs
          have hout : out = b :: ps.flatten := by simpa using h.symm
          subst hout
          have hih := ih ps.flatten (by rw [encodeChars, hrest]; rfl)
          rw [List.mapM_cons, hbd, hih]
          rfl

/-! ## Option mapM helpers -/

theorem mapM_isSome_of_all {α β : Type} (f : α → Option β) (l : List α)
    (h : ∀ x ∈ l, (f x).isSome) : (l.mapM f).isSome := by
  induction l with
  | nil => rw [List.mapM_nil]; rfl
  | cons a l2 ih =>
    rw [List.mapM_cons]
    obtain ⟨b, hb⟩ := Option.isSome_iff_exists.mp (h a (List.mem_cons_self a l2))
    obtain ⟨bs, hbs⟩ := Option.isSome_iff_exists.mp
      (ih (fun x hx => h x (List.mem_cons_of_mem a hx)))
    rw [hb, hbs]
    rfl

theorem encodeChars_isSome (e : Encoding) (cs : List Nat)
    (h : ∀ c ∈ cs, (charEncode e c).isSome) : (encodeChars e cs).isSome := by
  rw [encodeChars]
  obtain ⟨ps, hps⟩ := Option.isSome_iff_exists.mp (mapM_isSome_of_all (charEncode e) cs h)
  rw [hps]
  rfl

theorem mapM_elem_isSome {α β : Type} (f : α → Option β) (l : List α) (ys : List β)
    (h : l.mapM f = some ys) : ∀ x ∈ l, (f x).isSome := by
  induction l generalizing ys with
  | nil => simp
  | cons a l2 ih =>
    rw [List.mapM_cons] at h
    cases ha : f a with
    | none => rw [ha] at h; simp at h
    | some b =>
      cases hrest : l2.mapM f with
      | none => rw [ha, hrest] at h; simp at h
      | some bs =>
        intro x hx
        rcases List.mem_cons.mp hx with hx | hx
        · rw [hx, ha]; rfl
        · exact ih bs hrest x hx

theorem decodeBytes_char_encodable (e : Encoding) (bs cs : List Nat)
    (h : decodeBytes e bs = some cs) : ∀ c ∈ cs, (charEncode e c).isSome := by
  have henc := encodeChars_decodeBytes e bs cs h
  rw [encodeChars] at henc
  cases hm : cs.mapM (charEncode e) with
  | none => rw [hm] at henc; simp at henc
  | some ps => exact mapM_elem_isSome _ _ _ hm

theorem charEncode_ascii (e : Encoding) (c : Nat) (h : c < 0x80) :
    (charEncode e c).isSome := by
  cases e with
  | utf8 => simp [charEncode, utf8EncodeChar, if_pos h]
  | cp1252 => simp [charEncode, cp1252EncodeChar, if_pos h]
  | latin1 => simp [charEncode]; omega
  | iso8859_1 => simp [charEncode]; omega

/-! ## Rendered cells and fields -/

theorem renderRat_chars (q : Rat) :
    ∀ c ∈ renderRat q, c = 45 ∨ c = 46 ∨ (48 ≤ c ∧ c ≤ 57) := by
  intro c hc
  rw [renderRat] at hc
  by_cases hden : q.den = 1
  · rw [if_pos hden] at hc
    rw [intToDigits] at hc
    by_cases hneg : q.num < 0
    · rw [if_pos hneg] at hc
      rcases List.mem_cons.mp hc with h1 | h1
      · exact Or.inl h1
      · exact Or.inr (Or.inr (natToDigits_mem _ c h1))
    · rw [if_neg hneg] at hc
      exact Or.inr (Or.inr (natToDigits_mem _ c hc))
  · rw [if_neg hden] at hc
    simp only [List.mem_append, List.mem_cons] at hc
    rcases hc with (hc | hc) | hc | hc
    · by_cases hneg : q.num < 0
      · rw [if_pos hneg] at hc
        simp at hc
        exact Or.inl hc
      · rw [if_neg hneg] at hc
        simp at hc
    · exact Or.inr (Or.inr (natToDigits_mem _ c hc))
    · exact Or.inr (Or.inl hc)
    · exact Or.inr (Or.inr (fracDigitsPad_mem _ _ c hc))

theorem renderRat_ne_nil (q : Rat) : renderRat q ≠ [] := by
  rw [renderRat]
  by_cases hden : q.den = 1
  · rw [if_pos hden, intToDigits]
    by_cases hneg : q.num < 0
    · rw [if_pos hneg]; simp
    · rw [if_neg hneg]; exact natToDigits_ne_nil _
  · rw [if_neg hden]
    simp

theorem renderValue_convVal (flag : Bool) (f : List Nat) :
    renderValue (convVal flag f) = f
      ∨ ∃ q, numParse f = some q ∧ renderValue (convVal flag f) = renderRat q := by
  rw [convVal]
  by_cases hf : f = []
  · rw [if_pos hf]
    exact Or.inl (by rw [renderValue, hf])
  · rw [if_neg hf]
    cases flag with
    | false => exact Or.inl rfl
    | true =>
      simp only [if_true]
      cases hp : numParse f with
      | none => exact Or.inl rfl
      | some q => exact Or.inr ⟨q, rfl, rfl⟩

theorem convVal_nil_eq (flag : Bool) : convVal flag [] = Value.missing := by
  rw [convVal, if_pos rfl]

theorem convVal_false_eq (f : List Nat) (hf : f ≠ []) :
    convVal false f = Value.str f := by
  rw [convVal, if_neg hf]
  simp

theorem convVal_true_eq (f : List Nat) (hf : f ≠ []) (q : Rat)
    (hq : numParse f = some q) : convVal true f = Value.num q := by
  rw [convVal, if_neg hf, if_pos rfl, hq]

theorem fieldNumericOk_parse (f : List Nat) (hf : f ≠ [])
    (hok : fieldNumericOk f = true) : ∃ q, numParse f = some q := by
  rw [fieldNumericOk] at hok
  have hne : f.isEmpty = false := by
    cases f with
    | nil => exact absurd rfl hf
    | cons a l2 => rfl
  rw [hne] at hok
  simp only [Bool.false_or] at hok
  exact Option.isSome_iff_exists.mp hok

theorem convVal_render_roundtrip (flag : Bool) (f : List Nat)
    (hok : flag = true → fieldNumericOk f = true) :
    convVal flag (renderValue (convVal flag f)) = convVal flag f := by
  by_cases hf : f = []
  · subst hf
    rw [convVal_nil_eq, show renderValue Value.missing = [] from rfl, convVal_nil_eq]
  · cases flag with
    | false =>
      rw [convVal_false_eq f hf, show renderValue (Value.str f) = f from rfl,
        convVal_false_eq f hf]
    | true =>
      obtain ⟨q, hq⟩ := fieldNumericOk_parse f hf (hok rfl)
      rw [convVal_true_eq f hf q hq, show renderValue (Value.num q) = renderRat q from rfl]
      rw [convVal_true_eq (renderRat q) (renderRat_ne_nil q) q
        (numParse_renderRat q (numParse_den_dvd f q hq))]

theorem fieldNumericOk_render (flag : Bool) (f : List Nat)
    (hok : flag = true → fieldNumericOk f = true) :
    fieldNumericOk (renderValue (convVal flag f)) = fieldNumericOk f := by
  by_cases hf : f = []
  · subst hf
    rw [convVal_nil_eq, show renderValue Value.missing = [] from rfl]
  · cases flag with
    | false =>
      rw [convVal_false_eq f hf, show renderValue (Value.str f) = f from rfl]
    | true =>
      obtain ⟨q, hq⟩ := fieldNumericOk_parse f hf (hok rfl)
      rw [convVal_true_eq f hf q hq, show renderValue (Value.num q) = renderRat q from rfl]
      have hne2 : (renderRat q).isEmpty = false := by
        cases hr : renderRat q with
        | nil => exact absurd hr (renderRat_ne_nil q)
        | cons a l2 => rfl
      have hne : f.isEmpty = false := by
        cases f with
        | nil => exact absurd rfl hf
        | cons a l2 => rfl
      rw [fieldNumericOk, fieldNumericOk, hne, hne2,
        numParse_renderRat q (numParse_den_dvd f q hq), hq]

/-! ## Indexed access helpers -/

theorem getD_map {α β : Type} (f : α → β) (l : List α) (j : Nat) (d : β) (d2 : α)
    (hj : j < l.length) : (l.map f).getD j d = f (l.getD j d2) := by
  induction l generalizing j with
  | nil => simp at hj
  | cons a l2 ih =>
    cases j with
    | zero => rfl
    | succ j2 =>
      simp only [List.map_cons, List.getD_cons_succ]
      exact ih j2 (by simp at hj; omega)

theorem getD_zipWith {α β γ : Type} (f : α → β → γ) (l1 : List α) (l2 : List β)
    (j : Nat) (d : γ) (d1 : α) (d2 : β) (h1 : j < l1.length) (h2 : j < l2.length) :
    (List.zipWith f l1 l2).getD j d = f (l1.getD j d1) (l2.getD j d2) := by
  induction l1 generalizing l2 j with
  | nil => simp at h1
  | cons a t1 ih =>
    cases l2 with
    | nil => simp at h2
    | cons b t2 =>
      cases j with
      | zero => rfl
      | succ j2 =>
        simp only [List.zipWith_cons_cons, List.getD_cons_succ]
        exact ih t2 j2 (by simp at h1; omega) (by simp at h2; omega)

theorem colFlags_getD (n : Nat) (records : List (List (List Nat))) (j : Nat)
    (hj : j < n) : (colFlags n records).getD j false
      = records.all (fun r => fieldNumericOk (r.getD j [])) := by
  rw [colFlags]
  rw [getD_map _ _ j false 0 (by simp; omega)]
  have hr : (List.range n).getD j 0 = j := by
    rw [List.getD_eq_getElem?_getD, List.getElem?_range hj]
    rfl
  rw [hr]

/-! ## Row-level roundtrip lemmas -/

theorem all_congr_mem {α : Type} (xs : List α) (f g : α → Bool)
    (hfg : ∀ x ∈ xs, f x = g x) : xs.all f = xs.all g := by
  induction xs with
  | nil => rfl
  | cons b ys ih =>
    simp only [List.all_cons]
    rw [hfg b (List.mem_cons_self b ys),
      ih (fun x hx => hfg x (List.mem_cons_of_mem b hx))]

theorem mem_zipWith {α β γ : Type} (f : α → β → γ) (l1 : List α) (l2 : List β) :
    ∀ c ∈ List.zipWith f l1 l2, ∃ a ∈ l1, ∃ b ∈ l2, c = f a b := by
  induction l1 generalizing l2 with
  | nil => simp
  | cons a t1 ih =>
    cases l2 with
    | nil => simp
    | cons b t2 =>
      intro c hc
      simp only [List.zipWith_cons_cons, List.mem_cons] at hc
      rcases hc with hc | hc
      · exact ⟨a, List.mem_cons_self a t1, b, List.mem_cons_self b t2, hc⟩
      · obtain ⟨a2, ha2, b2, hb2, hcc⟩ := ih t2 c hc
        exact ⟨a2, List.mem_cons_of_mem a ha2, b2, List.mem_cons_of_mem b hb2, hcc⟩

theorem convVal_str_eq (flag : Bool) (f s : List Nat)
    (h : convVal flag f = Value.str s) : s = f := by
  rw [convVal] at h
  by_cases hf : f = []
  · rw [if_pos hf] at h; simp at h
  · rw [if_neg hf] at h
    cases flag with
    | false => simpa using h.symm
    | true =>
      simp only [if_true] at h
      cases hp : numParse f with
      | none => rw [hp] at h; simpa using h.symm
      | some q => rw [hp] at h; simp at h

theorem convRow_length (flags : List Bool) (r : List (List Nat)) :
    (convRow flags r).length = min flags.length r.length := by
  simp [convRow]

theorem convRow_render_roundtrip (flags : List Bool) (rec : List (List Nat))
    (hok : ∀ j, flags.getD j false = true → fieldNumericOk (rec.getD j []) = true) :
    convRow flags ((convRow flags rec).map renderValue) = convRow flags rec := by
  induction flags generalizing rec with
  | nil => simp [convRow]
  | cons b bs ih =>
    cases rec with
    | nil => simp [convRow]
    | cons f fs =>
      simp only [convRow, List.zipWith_cons_cons, List.map_cons]
      congr 1
      · exact convVal_render_roundtrip b f (fun hb => by
          have := hok 0
          simpa using this (by simpa using hb))
      · exact ih fs (fun j hj => by
          have := hok (j + 1)
          simp only [List.getD_cons_succ] at this
          exact this hj)

/-! ## Lines of a serialized table -/

theorem textLines_writeText (t : Table)
    (h10 : ∀ l ∈ (joinSep 44 t.header :: t.rows.map (fun r => joinSep 44 (r.map renderValue))),
      (10 : Nat) ∉ l)
    (hne : ∀ l ∈ (joinSep 44 t.header :: t.rows.map (fun r => joinSep 44 (r.map renderValue))),
      l ≠ []) :
    textLines (writeText t)
      = joinSep 44 t.header :: t.rows.map (fun r => joinSep 44 (r.map renderValue)) := by
  rw [textLines, writeText, splitSep_flatten_lines _ h10, List.filter_append]
  have h2 : ([[]] : List (List Nat)).filter (fun l => !l.isEmpty) = [] := rfl
  rw [h2, List.append_nil]
  apply List.filter_eq_self.mpr
  intro l hl
  have := hne l hl
  cases hll : l with
  | nil => exact absurd hll this
  | cons a l2 => rfl

theorem writeText_chars_sub (t : Table) (cs : List Nat)
    (hheader : ∀ f ∈ t.header, ∀ c ∈ f, c ∈ cs)
    (hrows : ∀ r ∈ t.rows, ∀ v ∈ r, ∀ s, v = Value.str s → ∀ c ∈ s, c ∈ cs) :
    ∀ c ∈ writeText t, c ∈ cs ∨ c < 0x80 := by
  intro c hc
  rw [writeText] at hc
  rw [List.mem_flatten] at hc
  obtain ⟨lx, hlx, hclx⟩ := hc
  rw [List.mem_map] at hlx
  obtain ⟨line, hline, rfl⟩ := hlx
  rcases List.mem_append.mp hclx with hcl | hcl
  · rcases List.mem_cons.mp hline with hline | hline
    · subst hline
      rcases mem_joinSep 44 t.header c hcl with h44 | ⟨f, hf, hcf⟩
      · right; omega
      · exact Or.inl (hheader f hf c hcf)
    · rw [List.mem_map] at hline
      obtain ⟨r, hr, rfl⟩ := hline
      rcases mem_joinSep 44 (r.map renderValue) c hcl with h44 | ⟨rf, hrf, hcrf⟩
      · right; omega
      · rw [List.mem_map] at hrf
        obtain ⟨v, hv, rfl⟩ := hrf
        cases v with
        | missing => simp [renderValue] at hcrf
        | num q =>
          rw [renderValue] at hcrf
          have := renderRat_chars q c hcrf
          right; omega
        | str s =>
          rw [renderValue] at hcrf
          exact Or.inl (hrows r hr (Value.str s) hv s rfl c hcrf)
  · right
    simp at hcl
    omega

/-! ## Reading back a serialized table -/

theorem readText_some (cs : List Nat) (t : Table) (h : readText cs = some t) :
    ∃ hd rs, textLines cs = hd :: rs
      ∧ ((rs.map (splitSep 44)).all
          (fun r => r.length == (splitSep 44 hd).length)) = true
      ∧ t = ⟨splitSep 44 hd, (rs.map (splitSep 44)).map
          (convRow (colFlags (splitSep 44 hd).length (rs.map (splitSep 44))))⟩ := by
  rw [readText] at h
  cases hl : textLines cs with
  | nil => rw [hl] at h; exact absurd h (by simp)
  | cons hd rs =>
    rw [hl] at h
    have h2 : (if ((rs.map (splitSep 44)).all
        (fun r => r.length == (splitSep 44 hd).length)) = true then
        some (⟨splitSep 44 hd, (rs.map (splitSep 44)).map
          (convRow (colFlags (splitSep 44 hd).length (rs.map (splitSep 44))))⟩ : Table)
      else none) = some t := h
    by_cases hall : ((rs.map (splitSep 44)).all
        (fun r => r.length == (splitSep 44 hd).length)) = true
    · rw [if_pos hall] at h2
      simp only [Option.some.injEq] at h2
      exact ⟨hd, rs, rfl, hall, h2.symm⟩
    · rw [if_neg hall] at h2
      exact absurd h2 (by simp)

theorem readText_of_lines (cs : List Nat) (hd : List Nat) (rs : List (List Nat))
    (hl : textLines cs = hd :: rs)
    (hall : ((rs.map (splitSep 44)).all
      (fun r => r.length == (splitSep 44 hd).length)) = true) :
    readText cs = some ⟨splitSep 44 hd, (rs.map (splitSep 44)).map
      (convRow (colFlags (splitSep 44 hd).length (rs.map (splitSep 44))))⟩ := by
  rw [readText]
  rw [hl]
  show (if ((rs.map (splitSep 44)).all
      (fun r => r.length == (splitSep 44 hd).length)) = true then
      some (⟨splitSep 44 hd, (rs.map (splitSep 44)).map
        (convRow (colFlags (splitSep 44 hd).length (rs.map (splitSep 44))))⟩ : Table)
    else none) = _
  rw [if_pos hall]

theorem colFlags_length (n : Nat) (records : List (List (List Nat))) :
    (colFlags n records).length = n := by
  simp [colFlags]

theorem renderValue_convVal_ne_nil (flag : Bool) (f : List Nat) (hf : f ≠ []) :
    renderValue (convVal flag f) ≠ [] := by
  rcases renderValue_convVal flag f with h | ⟨q, _, h⟩
  · rw [h]; exact hf
  · rw [h]; exact renderRat_ne_nil q

/-- Reading a freshly serialized table gives the table back: the delimited-text
writer is a right inverse of the reader on the image of the reader. -/
theorem readText_writeText (cs : List Nat) (t : Table) (h : readText cs = some t) :
    readText (writeText t) = some t := by
  obtain ⟨hd, rs, hl, hall, rfl⟩ := readText_some cs t h
  have hmemlines : ∀ l ∈ textLines cs, (10 : Nat) ∉ l ∧ l ≠ [] := by
    intro l hl2
    rw [textLines, List.mem_filter] at hl2
    refine ⟨not_sep_mem_splitSep 10 cs l hl2.1, ?_⟩
    intro hnil
    have := hl2.2
    rw [hnil] at this
    simp at this
  have hhd : (10 : Nat) ∉ hd ∧ hd ≠ [] :=
    hmemlines hd (by rw [hl]; exact List.mem_cons_self _ _)
  have hn1 : 1 ≤ (splitSep 44 hd).length :=
    List.length_pos.mpr (splitSep_ne_nil 44 hd)
  -- abbreviations (kept as plain terms to ease rewriting)
  -- records := rs.map (splitSep 44), flags := colFlags n records, n := (splitSep 44 hd).length
  have hreclen : ∀ rec ∈ rs.map (splitSep 44), rec.length = (splitSep 44 hd).length := by
    intro rec hrec
    have := List.all_eq_true.mp hall rec hrec
    simpa using this
  have hfield : ∀ rec ∈ rs.map (splitSep 44), ∀ f ∈ rec, (44 : Nat) ∉ f ∧ (10 : Nat) ∉ f := by
    intro rec hrec f hf
    rw [List.mem_map] at hrec
    obtain ⟨rLine, hrLine, rfl⟩ := hrec
    have hrl := hmemlines rLine (by rw [hl]; exact List.mem_cons_of_mem _ hrLine)
    refine ⟨not_sep_mem_splitSep 44 rLine f hf, ?_⟩
    intro h10
    exact hrl.1 (mem_of_mem_splitSep 44 rLine f hf 10 h10)
  have hflag_ok : ∀ rec ∈ rs.map (splitSep 44), ∀ j,
      (colFlags (splitSep 44 hd).length (rs.map (splitSep 44))).getD j false = true →
      fieldNumericOk (rec.getD j []) = true := by
    intro rec hrec j hj
    by_cases hjn : j < (splitSep 44 hd).length
    · rw [colFlags_getD _ _ j hjn] at hj
      exact List.all_eq_true.mp hj rec hrec
    · rw [List.getD_eq_default] at hj
      · simp at hj
      · rw [colFlags_length]; omega
  have hsinglecol : ∀ rec ∈ rs.map (splitSep 44), rec.length = 1 →
      ∃ f, rec = [f] ∧ f ≠ [] := by
    intro rec hrec h1
    obtain ⟨f, hf⟩ := List.length_eq_one.mp h1
    refine ⟨f, hf, ?_⟩
    rw [List.mem_map] at hrec
    obtain ⟨rLine, hrLine, hrec2⟩ := hrec
    have hrl := hmemlines rLine (by rw [hl]; exact List.mem_cons_of_mem _ hrLine)
    intro hfnil
    have hjs : joinSep 44 (splitSep 44 rLine) = rLine := joinSep_splitSep 44 rLine
    rw [hrec2, hf] at hjs
    have : joinSep 44 [f] = f := by simp [joinSep]
    rw [this] at hjs
    exact hrl.2 (by rw [← hjs, hfnil])
  -- facts about the rendered record of each record
  have hrendered_len : ∀ rec ∈ rs.map (splitSep 44),
      ((convRow (colFlags (splitSep 44 hd).length (rs.map (splitSep 44))) rec).map
        renderValue).length = (splitSep 44 hd).length := by
    intro rec hrec
    rw [List.length_map, convRow_length, colFlags_length, hreclen rec hrec]
    omega
  have hrendered_field : ∀ rec ∈ rs.map (splitSep 44),
      ∀ rf ∈ (convRow (colFlags (splitSep 44 hd).length (rs.map (splitSep 44))) rec).map
        renderValue, (44 : Nat) ∉ rf ∧ (10 : Nat) ∉ rf := by
    intro rec hrec rf hrf
    rw [List.mem_map] at hrf
    obtain ⟨v, hv, rfl⟩ := hrf
    obtain ⟨flag, _, f, hfmem, rfl⟩ := mem_zipWith convVal _ rec v hv
    rcases renderValue_convVal flag f with heq | ⟨q, _, heq⟩
    · rw [heq]
      exact hfield rec hrec f hfmem
    · rw [heq]
      constructor
      · intro hmem
        have := renderRat_chars q 44 hmem
        omega
      · intro hmem
        have := renderRat_chars q 10 hmem
        omega
  have hrendered_ne : ∀ rec ∈ rs.map (splitSep 44),
      joinSep 44 ((convRow (colFlags (splitSep 44 hd).length (rs.map (splitSep 44))) rec).map
        renderValue) ≠ [] := by
    intro rec hrec hnil
    rcases (joinSep_eq_nil_iff 44 _).mp hnil with hcase | hcase
    · have := hrendered_len rec hrec
      rw [hcase] at this
      simp at this
      omega
    · have hlen1 := hrendered_len rec hrec
      rw [hcase] at hlen1
      simp at hlen1
      obtain ⟨f, hfrec, hfne⟩ := hsinglecol rec hrec (by rw [hreclen rec hrec]; omega)
      subst hfrec
      have hfl : colFlags (splitSep 44 hd).length (rs.map (splitSep 44))
          = (colFlags (splitSep 44 hd).length (rs.map (splitSep 44))).getD 0 false
            :: ((colFlags (splitSep 44 hd).length (rs.map (splitSep 44))).drop 1) := by
        have hlen := colFlags_length (splitSep 44 hd).length (rs.map (splitSep 44))
        cases hcf : colFlags (splitSep 44 hd).length (rs.map (splitSep 44)) with
        | nil => rw [hcf] at hlen; simp at hlen; omega
        | cons a l2 => simp
      rw [hfl] at hcase
      simp only [convRow, List.zipWith_cons_cons, List.zipWith_nil_right,
        List.map_cons, List.map_nil] at hcase
      have : renderValue (convVal ((colFlags (splitSep 44 hd).length
          (rs.map (splitSep 44))).getD 0 false) f) = [] := by
        have := congrArg (fun l => l.headI) hcase
        simpa using this
      exact renderValue_convVal_ne_nil _ f hfne this
  -- the serialized lines
  have hlines10 : ∀ l ∈ (joinSep 44 (splitSep 44 hd)
      :: ((rs.map (splitSep 44)).map (convRow (colFlags (splitSep 44 hd).length
        (rs.map (splitSep 44))))).map (fun r => joinSep 44 (r.map renderValue))),
      (10 : Nat) ∉ l := by
    intro l hlmem
    rcases List.mem_cons.mp hlmem with hlmem | hlmem
    · rw [hlmem, joinSep_splitSep]
      exact hhd.1
    · rw [List.map_map, List.mem_map] at hlmem
      obtain ⟨rec, hrec, rfl⟩ := hlmem
      intro h10
      rcases mem_joinSep 44 _ 10 h10 with h44 | ⟨rf, hrf, h10rf⟩
      · omega
      · exact (hrendered_field rec hrec rf hrf).2 h10rf
  have hlines_ne : ∀ l ∈ (joinSep 44 (splitSep 44 hd)
      :: ((rs.map (splitSep 44)).map (convRow (colFlags (splitSep 44 hd).length
        (rs.map (splitSep 44))))).map (fun r => joinSep 44 (r.map renderValue))),
      l ≠ [] := by
    intro l hlmem
    rcases List.mem_cons.mp hlmem with hlmem | hlmem
    · rw [hlmem, joinSep_splitSep]
      exact hhd.2
    · rw [List.map_map, List.mem_map] at hlmem
      obtain ⟨rec, hrec, rfl⟩ := hlmem
      exact hrendered_ne rec hrec
  have hlines : textLines (writeText ⟨splitSep 44 hd, (rs.map (splitSep 44)).map
      (convRow (colFlags (splitSep 44 hd).length (rs.map (splitSep 44))))⟩)
      = hd :: ((rs.map (splitSep 44)).map (convRow (colFlags (splitSep 44 hd).length
        (rs.map (splitSep 44))))).map (fun r => joinSep 44 (r.map renderValue)) := by
    rw [textLines_writeText _ hlines10 hlines_ne, joinSep_splitSep]
  -- re-split of the rendered lines
  have hresplit : (((rs.map (splitSep 44)).map (convRow (colFlags (splitSep 44 hd).length
      (rs.map (splitSep 44))))).map (fun r => joinSep 44 (r.map renderValue))).map
        (splitSep 44)
      = (rs.map (splitSep 44)).map (fun rec =>
          (convRow (colFlags (splitSep 44 hd).length (rs.map (splitSep 44))) rec).map
            renderValue) := by
    rw [List.map_map, List.map_map]
    apply List.map_congr_left
    intro rec hrec
    simp only [Function.comp_apply]
    apply splitSep_joinSep
    · intro hnil
      have := hrendered_len rec hrec
      rw [hnil] at this
      simp at this
      omega
    · intro p hp
      exact (hrendered_field rec hrec p hp).1
  -- field counts of the re-split records
  have hall2 : ((((rs.map (splitSep 44)).map (convRow (colFlags (splitSep 44 hd).length
      (rs.map (splitSep 44))))).map (fun r => joinSep 44 (r.map renderValue))).map
        (splitSep 44)).all
      (fun r => r.length == (splitSep 44 hd).length) = true := by
    rw [hresplit, List.all_eq_true]
    intro rr hrr
    rw [List.mem_map] at hrr
    obtain ⟨rec, hrec, rfl⟩ := hrr
    simp only [beq_iff_eq]
    exact hrendered_len rec hrec
  -- the reconstructed flags agree
  have hflags2 : colFlags (splitSep 44 hd).length
      ((rs.map (splitSep 44)).map (fun rec =>
        (convRow (colFlags (splitSep 44 hd).length (rs.map (splitSep 44))) rec).map
          renderValue))
      = colFlags (splitSep 44 hd).length (rs.map (splitSep 44)) := by
    rw [colFlags, colFlags]
    apply List.map_congr_left
    intro j hj
    rw [List.mem_range] at hj
    rw [List.all_map]
    apply all_congr_mem
    intro rec hrec
    show fieldNumericOk (((convRow (colFlags (splitSep 44 hd).length
        (rs.map (splitSep 44))) rec).map renderValue).getD j [])
      = fieldNumericOk (rec.getD j [])
    have hjrec : j < rec.length := by rw [hreclen rec hrec]; omega
    have hjconv : j < (convRow (colFlags (splitSep 44 hd).length
        (rs.map (splitSep 44))) rec).length := by
      rw [convRow_length, colFlags_length, hreclen rec hrec]
      omega
    rw [getD_map renderValue _ j [] Value.missing hjconv]
    rw [convRow]
    rw [getD_zipWith convVal _ rec j Value.missing false [] (by rw [colFlags_length]; omega) hjrec]
    exact fieldNumericOk_render _ _ (hflag_ok rec hrec j)
  -- the reconstructed rows agree
  have hrows2 : ((rs.map (splitSep 44)).map (fun rec =>
      (convRow (colFlags (splitSep 44 hd).length (rs.map (splitSep 44))) rec).map
        renderValue)).map
      (convRow (colFlags (splitSep 44 hd).length (rs.map (splitSep 44))))
      = (rs.map (splitSep 44)).map (convRow (colFlags (splitSep 44 hd).length
          (rs.map (splitSep 44)))) := by
    rw [List.map_map]
    apply List.map_congr_left
    intro rec hrec
    simp only [Function.comp_apply]
    exact convRow_render_roundtrip _ rec (hflag_ok rec hrec)
  -- assemble
  rw [readText_of_lines _ hd _ hlines (by rw [hresplit] at hall2 ⊢; exact hall2)]
  rw [hresplit, hflags2, hrows2]

theorem readText_chars (cs : List Nat) (t : Table) (h : readText cs = some t) :
    (∀ f ∈ t.header, ∀ c ∈ f, c ∈ cs)
      ∧ (∀ r ∈ t.rows, ∀ v ∈ r, ∀ s, v = Value.str s → ∀ c ∈ s, c ∈ cs) := by
  obtain ⟨hd, rs, hl, hall, rfl⟩ := readText_some cs t h
  have hline_chars : ∀ l ∈ textLines cs, ∀ c ∈ l, c ∈ cs := by
    intro l hl2 c hc
    rw [textLines, List.mem_filter] at hl2
    exact mem_of_mem_splitSep 10 cs l hl2.1 c hc
  constructor
  · intro f hf c hc
    exact hline_chars hd (by rw [hl]; exact List.mem_cons_self _ _) c
      (mem_of_mem_splitSep 44 hd f hf c hc)
  · intro r hr v hv s hs c hc
    simp only [List.mem_map] at hr
    obtain ⟨rec, ⟨rLine, hrLine, rfl⟩, rfl⟩ := hr
    rw [convRow] at hv
    obtain ⟨flag, _, f, hfmem, rfl⟩ := mem_zipWith convVal _ _ v hv
    have hsf := convVal_str_eq _ _ _ hs
    exact hline_chars rLine (by rw [hl]; exact List.mem_cons_of_mem _ hrLine) c
      (mem_of_mem_splitSep 44 rLine f hfmem c (hsf ▸ hc))

theorem readCsv_some (e : Encoding) (bs cs : List Nat) (t : Table)
    (hdec : decodeBytes e bs = some cs) (hrt : readText cs = some t) :
    readCsv e bs = Except.ok t := by
  simp [readCsv, hdec, hrt]

theorem readCsv_decode_none (e : Encoding) (bs : List Nat)
    (hdec : decodeBytes e bs = none) :
    readCsv e bs = Except.error ReadError.decodeError := by
  simp [readCsv, hdec]

theorem readCsv_parse_none (e : Encoding) (bs cs : List Nat)
    (hdec : decodeBytes e bs = some cs) (hrt : readText cs = none) :
    readCsv e bs = Except.error ReadError.parseError := by
  simp [readCsv, hdec, hrt]

theorem readCsv_toCsv_roundtrip (e : Encoding) (bs : List Nat) (t : Table)
    (h : readCsv e bs = Except.ok t) :
    ∃ out, toCsv e t = some out ∧ readCsv e out = Except.ok t := by
  cases hdec : decodeBytes e bs with
  | none =>
    rw [readCsv_decode_none e bs hdec] at h
    exact absurd h (by simp)
  | some txt =>
    cases hrt : readText txt with
    | none =>
      rw [readCsv_parse_none e bs txt hdec hrt] at h
      exact absurd h (by simp)
    | some t2 =>
      rw [readCsv_some e bs txt t2 hdec hrt] at h
      simp only [Except.ok.injEq] at h
      subst h
      obtain ⟨hheadc, hrowc⟩ := readText_chars txt t2 hrt
      have hsub := writeText_chars_sub t2 txt hheadc hrowc
      have hallenc : ∀ c ∈ writeText t2, (charEncode e c).isSome := by
        intro c hc
        rcases hsub c hc with hin | hascii
        · exact decodeBytes_char_encodable e bs txt hdec c hin
        · exact charEncode_ascii e c hascii
      obtain ⟨out, hout⟩ := Option.isSome_iff_exists.mp
        (encodeChars_isSome e (writeText t2) hallenc)
      refine ⟨out, hout, ?_⟩
      exact readCsv_some e out (writeText t2) t2
        (decodeBytes_encodeChars e (writeText t2) out hout)
        (readText_writeText txt t2 hrt)

/-! ## Duplicate removal -/

theorem dedupRowsAux_spec (rs : List (List Value)) : ∀ seen,
    dedupRowsAux seen rs
      = (rs.enum.filter (fun p => decide (p.2 ∉ seen ∧ p.2 ∉ rs.take p.1))).map
          (fun p => p.2) := by
  induction rs with
  | nil => intro seen; simp [dedupRowsAux]
  | cons r rs ih =>
    intro seen
    have hmapf : ((fun p : Nat × List Value => p.2) ∘ Prod.map (· + 1) id)
        = (fun p : Nat × List Value => p.2) := by
      funext p
      cases p
      rfl
    rw [List.enum_cons']
    by_cases hseen : r ∈ seen
    · rw [dedupRowsAux, if_pos hseen, ih seen, List.filter_cons]
      rw [if_neg (by simp [hseen])]
      rw [List.filter_map, List.map_map, hmapf]
      congr 1
      apply List.filter_congr
      intro p hp
      obtain ⟨i, x⟩ := p
      simp only [Function.comp_apply, Prod.map_apply, id_eq]
      apply decide_eq_decide.mpr
      rw [List.take_succ_cons]
      constructor
      · rintro ⟨h1, h2⟩
        refine ⟨h1, fun hx => ?_⟩
        rcases List.mem_cons.mp hx with hx | hx
        · exact h1 (hx ▸ hseen)
        · exact h2 hx
      · rintro ⟨h1, h2⟩
        exact ⟨h1, fun hx => h2 (List.mem_cons_of_mem r hx)⟩
    · rw [dedupRowsAux, if_neg hseen, ih (r :: seen), List.filter_cons]
      rw [if_pos (by simp [hseen])]
      rw [List.map_cons]
      congr 1
      rw [List.filter_map, List.map_map, hmapf]
      congr 1
      apply List.filter_congr
      intro p hp
      obtain ⟨i, x⟩ := p
      simp only [Function.comp_apply, Prod.map_apply, id_eq]
      apply decide_eq_decide.mpr
      rw [List.take_succ_cons]
      constructor
      · rintro ⟨h1, h2⟩
        refine ⟨fun hx => h1 (List.mem_cons_of_mem r hx), fun hx => ?_⟩
        rcases List.mem_cons.mp hx with hx | hx
        · exact h1 (hx ▸ List.mem_cons_self r seen)
        · exact h2 hx
      · rintro ⟨h1, h2⟩
        refine ⟨fun hx => ?_, fun hx => h2 (List.mem_cons_of_mem r hx)⟩
        rcases List.mem_cons.mp hx with hx | hx
        · exact h2 (hx ▸ List.mem_cons_self r (List.take i rs))
        · exact h1 hx

theorem dropDuplicates_spec (rs : List (List Value)) :
    dropDuplicates rs = specFirstOccurrences rs := by
  rw [dropDuplicates, dedupRowsAux_spec rs [], specFirstOccurrences]
  congr 1
  apply List.filter_congr
  intro p hp
  apply decide_eq_decide.mpr
  simp

theorem dedupRowsAux_not_seen (rs : List (List Value)) : ∀ seen,
    ∀ x ∈ dedupRowsAux seen rs, x ∉ seen := by
  induction rs with
  | nil => intro seen x hx; simp [dedupRowsAux] at hx
  | cons r rs ih =>
    intro seen x hx
    rw [dedupRowsAux] at hx
    by_cases hseen : r ∈ seen
    · rw [if_pos hseen] at hx
      exact ih seen x hx
    · rw [if_neg hseen] at hx
      rcases List.mem_cons.mp hx with hx | hx
      · exact hx ▸ hseen
      · intro hmem
        exact ih (r :: seen) x hx (List.mem_cons_of_mem r hmem)

theorem dedupRowsAux_nodup (rs : List (List Value)) : ∀ seen,
    (dedupRowsAux seen rs).Nodup := by
  induction rs with
  | nil => intro seen; simp [dedupRowsAux]
  | cons r rs ih =>
    intro seen
    rw [dedupRowsAux]
    by_cases hseen : r ∈ seen
    · rw [if_pos hseen]
      exact ih seen
    · rw [if_neg hseen]
      refine List.nodup_cons.mpr ⟨?_, ih (r :: seen)⟩
      intro hmem
      exact dedupRowsAux_not_seen rs (r :: seen) r hmem (List.mem_cons_self r seen)

theorem dedupRowsAux_of_nodup (rs : List (List Value)) : ∀ seen, rs.Nodup →
    (∀ x ∈ rs, x ∉ seen) → dedupRowsAux seen rs = rs := by
  induction rs with
  | nil => intro seen _ _; rfl
  | cons r rs ih =>
    intro seen hnd hdisj
    rw [dedupRowsAux, if_neg (hdisj r (List.mem_cons_self r rs))]
    congr 1
    apply ih (r :: seen) (List.nodup_cons.mp hnd).2
    intro x hx hmem
    rcases List.mem_cons.mp hmem with hm | hm
    · exact (List.nodup_cons.mp hnd).1 (hm ▸ hx)
    · exact hdisj x (List.mem_cons_of_mem r hx) hm

theorem dropDuplicates_idem (rs : List (List Value)) :
    dropDuplicates (dropDuplicates rs) = dropDuplicates rs :=
  dedupRowsAux_of_nodup _ [] (dedupRowsAux_nodup rs []) (by simp)

theorem dropDuplicates_ne_nil (rs : List (List Value)) (h : rs ≠ []) :
    dropDuplicates rs ≠ [] := by
  cases rs with
  | nil => exact absurd rfl h
  | cons r rs =>
    rw [dropDuplicates, dedupRowsAux, if_neg (by simp)]
    simp

theorem removeDuplicateRows_spec (t : Table) (h : t.header ≠ []) :
    (removeDuplicateRows t).1.header = t.header
      ∧ (removeDuplicateRows t).1.rows = specFirstOccurrences t.rows
      ∧ (removeDuplicateRows t).2
          = t.rows.length - (specFirstOccurrences t.rows).length := by
  have hhe : t.header.isEmpty = false := by
    cases hh : t.header with
    | nil => exact absurd hh h
    | cons a l2 => rfl
  by_cases hrows : t.rows = []
  · rw [removeDuplicateRows, tableEmpty, hhe, hrows]
    simp [specFirstOccurrences, hrows]
  · have hre : t.rows.isEmpty = false := by
      cases hr : t.rows with
      | nil => exact absurd hr hrows
      | cons a l2 => rfl
    rw [removeDuplicateRows, tableEmpty, hhe, hre]
    rw [if_neg (by simp)]
    refine ⟨rfl, ?_, ?_⟩
    · show dropDuplicates t.rows = specFirstOccurrences t.rows
      exact dropDuplicates_spec t.rows
    · show t.rows.length - (dropDuplicates t.rows).length
        = t.rows.length - (specFirstOccurrences t.rows).length
      rw [dropDuplicates_spec]

theorem removeDuplicateRows_idem (t : Table) :
    removeDuplicateRows (removeDuplicateRows t).1 = ((removeDuplicateRows t).1, 0) := by
  by_cases hemp : tableEmpty t = true
  · have h1 : removeDuplicateRows t = (t, 0) := by
      rw [removeDuplicateRows, if_pos hemp]
    rw [h1]
    show removeDuplicateRows t = (t, 0)
    exact h1
  · have h1 : removeDuplicateRows t = (⟨t.header, dropDuplicates t.rows⟩,
        t.rows.length - (dropDuplicates t.rows).length) := by
      rw [removeDuplicateRows, if_neg hemp]
    rw [tableEmpty, Bool.or_eq_true] at hemp
    push_neg at hemp
    simp only [Bool.not_eq_true] at hemp
    have hrne : t.rows ≠ [] := by
      intro hr
      rw [hr] at hemp
      simp at hemp
    have hddne : dropDuplicates t.rows ≠ [] := dropDuplicates_ne_nil t.rows hrne
    have hdde : (dropDuplicates t.rows).isEmpty = false := by
      cases hdd : dropDuplicates t.rows with
      | nil => exact absurd hdd hddne
      | cons a l2 => rfl
    rw [h1]
    show removeDuplicateRows ⟨t.header, dropDuplicates t.rows⟩
      = (⟨t.header, dropDuplicates t.rows⟩, 0)
    rw [removeDuplicateRows]
    rw [show tableEmpty ⟨t.header, dropDuplicates t.rows⟩ = false by
      rw [tableEmpty]
      simp [hemp.1, hdde]]
    rw [if_neg (by simp)]
    rw [dropDuplicates_idem]
    simp

/-! ## Mean-imputation lemmas -/

theorem colMean_eq_some (rows : List (List Value)) (j : Nat)
    (h : colNonMissing rows j ≠ []) :
    colMean rows j = some (colMeanVal rows j) := by
  rw [colMeanVal]
  have h2 : colMean rows j = match colNonMissing rows j with
      | [] => none
      | vs => some (vs.sum / (vs.length : Rat)) := rfl
  rw [h2]
  cases hc : colNonMissing rows j with
  | nil => exact absurd hc h
  | cons a l => rfl

theorem colMean_eq_none (rows : List (List Value)) (j : Nat)
    (h : colNonMissing rows j = []) : colMean rows j = none := by
  have h2 : colMean rows j = match colNonMissing rows j with
      | [] => none
      | vs => some (vs.sum / (vs.length : Rat)) := rfl
  rw [h2, h]

theorem fillCell_not_missing (rows : List (List Value)) (j : Nat) (v : Value)
    (h : v ≠ Value.missing) : fillCell rows j v = v := by
  cases v with
  | num q => rfl
  | str s => rfl
  | missing => exact absurd rfl h

theorem fillCell_missing_mean (rows : List (List Value)) (j : Nat)
    (hnum : numericCol rows j = true) (hne : colNonMissing rows j ≠ []) :
    fillCell rows j Value.missing = Value.num (colMeanVal rows j) := by
  simp [fillCell, hnum, colMean_eq_some rows j hne]

theorem fillCell_eq_self (rows : List (List Value)) (j : Nat) (v : Value)
    (h : numericCol rows j = false ∨ colNonMissing rows j = []) :
    fillCell rows j v = v := by
  cases v with
  | num q => rfl
  | str s => rfl
  | missing =>
    rcases h with h | h
    · simp [fillCell, h]
    · simp [fillCell, colMean_eq_none rows j h]

theorem fillCell_ne_missing (rows : List (List Value)) (j : Nat) (v : Value)
    (hnum : numericCol rows j = true) (hne : colNonMissing rows j ≠ []) :
    fillCell rows j v ≠ Value.missing := by
  cases v with
  | num q => simp [fillCell]
  | str s => simp [fillCell]
  | missing =>
    rw [fillCell_missing_mean rows j hnum hne]
    simp

theorem fillRow_getD (rows : List (List Value)) (r : List Value) (j : Nat)
    (hj : j < r.length) :
    cellAt (r.mapIdx (fun j v => fillCell rows j v)) j
      = fillCell rows j (cellAt r j) := by
  have hj2 : j < (r.mapIdx (fun j v => fillCell rows j v)).length := by
    rw [List.length_mapIdx]
    exact hj
  rw [cellAt, cellAt, List.getD_eq_getElem _ _ hj2, List.getD_eq_getElem _ _ hj,
    List.getElem_mapIdx]

theorem tableWF_row_length (t : Table) (hwf : tableWF t = true) (r : List Value)
    (hr : r ∈ t.rows) : r.length = t.header.length := by
  rw [tableWF, List.all_eq_true] at hwf
  simpa using hwf r hr

theorem getD_mem_of_lt {α : Type} (l : List α) (i : Nat) (d : α)
    (hi : i < l.length) : l.getD i d ∈ l := by
  rw [List.getD_eq_getElem l d hi]
  exact List.getElem_mem hi

/-! ## Projection lemmas -/

theorem project_ok (t : Table) (sel : List (List Nat))
    (h : ∀ c ∈ sel, c ∈ t.header) :
    project t sel = Except.ok ⟨sel,
      t.rows.map (fun r => sel.map (fun c => cellAt r (t.header.indexOf c)))⟩ := by
  have hf : sel.find? (fun c => !t.header.contains c) = none := by
    rw [List.find?_eq_none]
    intro c hc
    simp [h c hc]
  show (match sel.find? (fun c => !t.header.contains c) with
    | some c => Except.error c
    | none => Except.ok (⟨sel, t.rows.map
        (fun r => sel.map (fun c => cellAt r (t.header.indexOf c)))⟩ : Table))
    = Except.ok ⟨sel, t.rows.map (fun r => sel.map (fun c => cellAt r (t.header.indexOf c)))⟩
  rw [hf]

theorem indexOf_get_of_nodup {α : Type} [BEq α] [LawfulBEq α] :
    ∀ (l : List α), l.Nodup → ∀ i, ∀ h : i < l.length, l.indexOf (l.get ⟨i, h⟩) = i := by
  intro l
  induction l with
  | nil =>
    intro _ i h
    simp at h
  | cons a as ih =>
    intro hnd i h
    rw [List.nodup_cons] at hnd
    cases i with
    | zero => simp [List.indexOf_cons]
    | succ j =>
      have hj : j < as.length := by simpa using h
      have hget : (a :: as).get ⟨j + 1, h⟩ = as.get ⟨j, hj⟩ := rfl
      rw [hget]
      have hne : (a == as.get ⟨j, hj⟩) = false := by
        rw [beq_eq_false_iff_ne]
        intro heq
        apply hnd.1
        rw [heq]
        exact List.get_mem as j hj
      rw [List.indexOf_cons, hne]
      show List.indexOf (as.get ⟨j, hj⟩) as + 1 = j + 1
      rw [ih hnd.2 j hj]

theorem map_indexOf_cell (hd : List (List Nat)) (r : List Value)
    (hnd : hd.Nodup) (hlen : r.length = hd.length) :
    hd.map (fun c => cellAt r (hd.indexOf c)) = r := by
  apply List.ext_getElem
  · simp [hlen]
  · intro k h1 h2
    rw [List.getElem_map]
    have h3 : k < hd.length := by simpa using h1
    have h4 : hd[k] = hd.get ⟨k, h3⟩ := rfl
    rw [h4, indexOf_get_of_nodup hd hnd k h3]
    rw [cellAt, List.getD_eq_getElem r Value.missing h2]

theorem project_full (t : Table) (hwf : tableWF t = true) (hnd : t.header.Nodup) :
    project t t.header = Except.ok t := by
  rw [project_ok t t.header (fun c hc => hc)]
  have hrows : t.rows.map
      (fun r => t.header.map (fun c => cellAt r (t.header.indexOf c))) = t.rows := by
    conv_rhs => rw [← List.map_id t.rows]
    apply List.map_congr_left
    intro r hr
    exact map_indexOf_cell t.header r hnd (tableWF_row_length t hwf r hr)
  rw [hrows]

theorem project_err (t : Table) (sel : List (List Nat))
    (h : ∃ c ∈ sel, c ∉ t.header) :
    ∃ c, project t sel = Except.error c ∧ c ∈ sel ∧ c ∉ t.header := by
  have hs : (sel.find? (fun c => !t.header.contains c)).isSome := by
    rw [List.find?_isSome]
    obtain ⟨c, hc, hn⟩ := h
    exact ⟨c, hc, by simp [hn]⟩
  obtain ⟨c, hc⟩ := Option.isSome_iff_exists.mp hs
  refine ⟨c, ?_, List.mem_of_find?_eq_some hc, ?_⟩
  · show (match sel.find? (fun c => !t.header.contains c) with
      | some c => Except.error c
      | none => Except.ok (⟨sel, t.rows.map
          (fun r => sel.map (fun c => cellAt r (t.header.indexOf c)))⟩ : Table))
      = Except.error c
    rw [hc]
  · have hp := List.find?_some hc
    simpa using hp

theorem flatten_replicate_single (n : Nat) (a : Nat) :
    (List.replicate n [a]).flatten = List.replicate n a := by
  induction n with
  | zero => rfl
  | succ k ih => simp [List.replicate_succ, ih]

theorem writeText_zero_cols (rs : List (List Value)) (h : ∀ r ∈ rs, r = []) :
    writeText ⟨[], rs⟩ = List.replicate (rs.length + 1) 10 := by
  have h2 : rs.map (fun r => joinSep 44 (r.map renderValue))
      = List.replicate rs.length [] := by
    rw [List.eq_replicate_iff]
    refine ⟨by simp, ?_⟩
    intro b hb
    rw [List.mem_map] at hb
    obtain ⟨r, hr, rfl⟩ := hb
    rw [h r hr]
    rfl
  show ((joinSep 44 ([] : List (List Nat)) :: rs.map
      (fun r => joinSep 44 (r.map renderValue))).map (fun l => l ++ [10])).flatten
    = List.replicate (rs.length + 1) 10
  rw [h2]
  have h3 : joinSep 44 ([] : List (List Nat)) :: List.replicate rs.length ([] : List Nat)
      = List.replicate (rs.length + 1) [] := by
    rw [List.replicate_succ]
    rfl
  rw [h3]
  have h4 : (List.replicate (rs.length + 1) ([] : List Nat)).map (fun l => l ++ [10])
      = List.replicate (rs.length + 1) [10] := by
    simp
  rw [h4, flatten_replicate_single]

/-! ## Download-name lemmas (str.replace, app.py line 137) -/

theorem leadsWith_append_self (l r : List Char) : leadsWith l (l ++ r) = true := by
  induction l with
  | nil => rfl
  | cons a as ih => simp [leadsWith, ih]

theorem replaceAllAux_nil_input (pat rep : List Char) (fuel : Nat) :
    replaceAllAux pat rep fuel [] = [] := by
  cases fuel with
  | zero => rfl
  | succ k => rfl

theorem replaceAllAux_single (pat rep : List Char) (hp : pat ≠ []) :
    ∀ (stem : List Char) (fuel : Nat), stem.length + pat.length ≤ fuel →
    (∀ i, i < stem.length → leadsWith pat ((stem ++ pat).drop i) = false) →
    replaceAllAux pat rep fuel (stem ++ pat) = stem ++ rep := by
  intro stem
  induction stem with
  | nil =>
    intro fuel hfuel hocc
    simp only [List.nil_append]
    cases pat with
    | nil => exact absurd rfl hp
    | cons c cs =>
      cases fuel with
      | zero => simp at hfuel
      | succ f =>
        have hlw : leadsWith (c :: cs) (c :: cs) = true := by
          have h1 := leadsWith_append_self (c :: cs) []
          rwa [List.append_nil] at h1
        simp only [replaceAllAux]
        rw [if_pos hlw]
        rw [List.drop_length]
        rw [replaceAllAux_nil_input]
        rw [List.append_nil]
  | cons s ss ih =>
    intro fuel hfuel hocc
    cases fuel with
    | zero => simp at hfuel
    | succ f =>
      have h0 : leadsWith pat ((s :: ss) ++ pat) = false := by
        have h1 := hocc 0 (by simp)
        simpa using h1
      show replaceAllAux pat rep (f + 1) (s :: (ss ++ pat)) = s :: (ss ++ rep)
      simp only [replaceAllAux]
      rw [if_neg (by rw [show s :: (ss ++ pat) = (s :: ss) ++ pat from rfl, h0]; simp)]
      congr 1
      apply ih f
      · have h2 : (s :: ss).length + pat.length ≤ f + 1 := hfuel
        simp only [List.length_cons] at h2
        omega
      · intro i hi
        have h3 := hocc (i + 1) (by simp; omega)
        rwa [show ((s :: ss) ++ pat).drop (i + 1) = ((ss ++ pat)).drop i from rfl] at h3

theorem replaceAll_single (pat rep stem : List Char) (hp : pat ≠ [])
    (hocc : ∀ i, i < stem.length → leadsWith pat ((stem ++ pat).drop i) = false) :
    replaceAll pat rep (stem ++ pat) = stem ++ rep := by
  rw [replaceAll]
  exact replaceAllAux_single pat rep hp stem (stem ++ pat).length (by simp) hocc

theorem project_cell (t : Table) (sel : List (List Nat)) (i k : Nat)
    (hi : i < t.rows.length) (hk : k < sel.length) :
    cellAt ((t.rows.map (fun r => sel.map (fun c => cellAt r (t.header.indexOf c)))).getD i []) k
      = cellAt (t.rows.getD i []) (t.header.indexOf (sel.getD k [])) := by
  rw [getD_map (fun r => sel.map (fun c => cellAt r (t.header.indexOf c))) t.rows i [] [] hi]
  show (sel.map (fun c => cellAt (t.rows.getD i []) (t.header.indexOf c))).getD k Value.missing
    = cellAt (t.rows.getD i []) (t.header.indexOf (sel.getD k []))
  rw [getD_map (fun c => cellAt (t.rows.getD i []) (t.header.indexOf c)) sel k Value.missing [] hk]

/-! # The claims -/

/-- Claim C1 (amended): for every table with at least one column,
RemoveDuplicateRows keeps exactly the first occurrence of each row value
(value equality over whole rows, missing markers included), preserves the
survivor order, and reports the number of removed rows. The original claim
quantified over every table; a zero-column table is returned unchanged by
drop_duplicates (the DataFrame.empty early return), so its rows beyond the
first survive even though they are all value-equal to the first. -/
theorem claim_C1 (t : Table) (h : t.header ≠ []) :
    (removeDuplicateRows t).1.header = t.header
  ∧ (removeDuplicateRows t).1.rows = specFirstOccurrences t.rows
  ∧ (removeDuplicateRows t).2
      = t.rows.length - (specFirstOccurrences t.rows).length :=
  removeDuplicateRows_spec t h

theorem claim_C1_witness :
    ((⟨[[97]], [[Value.num 1], [Value.num 1], [Value.num 2]]⟩ : Table).header ≠ [])
  ∧ ((removeDuplicateRows ⟨[[97]], [[Value.num 1], [Value.num 1], [Value.num 2]]⟩).1.header
      = [[97]]
    ∧ (removeDuplicateRows ⟨[[97]], [[Value.num 1], [Value.num 1], [Value.num 2]]⟩).1.rows
      = specFirstOccurrences [[Value.num 1], [Value.num 1], [Value.num 2]]
    ∧ (removeDuplicateRows ⟨[[97]], [[Value.num 1], [Value.num 1], [Value.num 2]]⟩).2
      = ([[Value.num 1], [Value.num 1], [Value.num 2]] : List (List Value)).length
        - (specFirstOccurrences [[Value.num 1], [Value.num 1], [Value.num 2]]).length) :=
  ⟨by decide, claim_C1 ⟨[[97]], [[Value.num 1], [Value.num 1], [Value.num 2]]⟩ (by decide)⟩

/-- Claim C1, counterexample to the original statement: a zero-column
two-row table. Both rows are the empty row, so the second is value-equal in
every column to the first, yet drop_duplicates returns the frame unchanged
and reports zero removals. -/
theorem claim_C1_cex :
    removeDuplicateRows ⟨[], [[], []]⟩ = (⟨[], [[], []]⟩, 0)
  ∧ specFirstOccurrences [[], []] = [[]]
  ∧ (removeDuplicateRows (⟨[], [[], []]⟩ : Table)).1.rows
      ≠ specFirstOccurrences [[], []] :=
  ⟨rfl, rfl, by decide⟩

/-- Claim C3 (amended): neither cleaning operation can fail — there is no
EmptyTableError anywhere in the program, both buttons always succeed. On a
well-formed table with zero columns, and likewise on one with zero rows,
both operations return the table unchanged and duplicate removal reports a
zero count. The original claim asserted failure on zero-column input. -/
theorem claim_C3 (t : Table) (hwf : tableWF t = true)
    (h : t.header = [] ∨ t.rows = []) :
    removeDuplicateRows t = (t, 0) ∧ fillMissingNumericWithMean t = t := by
  constructor
  · have he : tableEmpty t = true := by
      rcases h with h | h
      · rw [tableEmpty, h]
        rfl
      · rw [tableEmpty, h]
        simp
    rw [removeDuplicateRows, if_pos he]
  · rcases h with h | h
    · have hr : t.rows.map (fun r => r.mapIdx (fun j v => fillCell t.rows j v)) = t.rows := by
        conv_rhs => rw [← List.map_id t.rows]
        apply List.map_congr_left
        intro r hrm
        have h0 : r = [] := by
          have h1 := tableWF_row_length t hwf r hrm
          rw [h] at h1
          simpa using h1
        rw [h0]
        rfl
      show (⟨t.header, t.rows.map (fun r => r.mapIdx (fun j v => fillCell t.rows j v))⟩ : Table) = t
      rw [hr]
    · have hr : t.rows.map (fun r => r.mapIdx (fun j v => fillCell t.rows j v)) = t.rows := by
        rw [h]
        rfl
      show (⟨t.header, t.rows.map (fun r => r.mapIdx (fun j v => fillCell t.rows j v))⟩ : Table) = t
      rw [hr]

theorem claim_C3_witness :
    tableWF ⟨[[99]], []⟩ = true
  ∧ ((⟨[[99]], []⟩ : Table).header = [] ∨ (⟨[[99]], []⟩ : Table).rows = [])
  ∧ (removeDuplicateRows ⟨[[99]], []⟩ = (⟨[[99]], []⟩, 0)
     ∧ fillMissingNumericWithMean ⟨[[99]], []⟩ = ⟨[[99]], []⟩) :=
  ⟨by decide, Or.inr rfl, claim_C3 ⟨[[99]], []⟩ (by decide) (Or.inr rfl)⟩

/-- Claim C3, counterexample to the original statement: on a zero-column
three-row table both operations succeed and return the table unchanged —
nothing fails, no error value exists in the code to fail with. -/
theorem claim_C3_cex :
    removeDuplicateRows ⟨[], [[], [], []]⟩ = (⟨[], [[], [], []]⟩, 0)
  ∧ fillMissingNumericWithMean ⟨[], [[], [], []]⟩ = ⟨[], [[], [], []]⟩ :=
  ⟨rfl, rfl⟩

/-- Claim C9: RemoveDuplicateRows is idempotent — applying it to the table
produced by a first application changes nothing and reports a zero count. -/
theorem claim_C9 (t : Table) :
    removeDuplicateRows (removeDuplicateRows t).1 = ((removeDuplicateRows t).1, 0) :=
  removeDuplicateRows_idem t

/-- Claim C4: reading delimited-text bytes that are valid under an encoding
into a table and writing the table straight back under the same encoding
yields bytes that read back to the very same table — the same header names
and the same row values, canonical value formatting being absorbed by the
re-read. -/
theorem claim_C4 (e : Encoding) (bs : List Nat) (t : Table)
    (h : readCsv e bs = Except.ok t) :
    ∃ out, toCsv e t = some out ∧ readCsv e out = Except.ok t :=
  readCsv_toCsv_roundtrip e bs t h

theorem claim_C4_witness :
    readCsv Encoding.utf8 [97, 44, 98, 10, 49, 44, 120, 10]
      = Except.ok ⟨[[97], [98]], [[Value.num 1, Value.str [120]]]⟩
  ∧ ∃ out, toCsv Encoding.utf8 ⟨[[97], [98]], [[Value.num 1, Value.str [120]]]⟩ = some out
      ∧ readCsv Encoding.utf8 out
          = Except.ok ⟨[[97], [98]], [[Value.num 1, Value.str [120]]]⟩ :=
  ⟨by with_unfolding_all rfl,
   claim_C4 Encoding.utf8 [97, 44, 98, 10, 49, 44, 120, 10]
     ⟨[[97], [98]], [[Value.num 1, Value.str [120]]]⟩ (by with_unfolding_all rfl)⟩

/-- Claim C6: projecting onto a selection holding a name absent from the
table's columns fails with an error naming a missing column (the KeyError
of df[selected_columns]), and the pipeline step leaves the current table
unmodified because the surrounding handler catches the exception. -/
theorem claim_C6 (t : Table) (sel : List (List Nat)) (c0 : List Nat)
    (hc : c0 ∈ sel) (hn : c0 ∉ t.header) :
    ∃ c, project t sel = Except.error c ∧ c ∈ sel ∧ c ∉ t.header
      ∧ projectStep t sel = t := by
  obtain ⟨c, hcp, hcm, hcn⟩ := project_err t sel ⟨c0, hc, hn⟩
  refine ⟨c, hcp, hcm, hcn, ?_⟩
  simp only [projectStep, hcp]

theorem claim_C6_witness :
    ([122] : List Nat) ∈ [[122]]
  ∧ ([122] : List Nat) ∉ (⟨[[102]], [[Value.num 7]]⟩ : Table).header
  ∧ ∃ c, project ⟨[[102]], [[Value.num 7]]⟩ [[122]] = Except.error c
      ∧ c ∈ [[122]] ∧ c ∉ (⟨[[102]], [[Value.num 7]]⟩ : Table).header
      ∧ projectStep ⟨[[102]], [[Value.num 7]]⟩ [[122]] = ⟨[[102]], [[Value.num 7]]⟩ :=
  ⟨by decide, by decide,
   claim_C6 ⟨[[102]], [[Value.num 7]]⟩ [[122]] [122] (by decide) (by decide)⟩

/-- Claim C7: reading delimited text fails with a decode error exactly when
the raw bytes are invalid under the chosen encoding; a successful decode
substitutes nothing — re-encoding its characters restores the original
bytes exactly. Concretely, the bytes 97, 10, 255 fail under strict UTF-8
(0xFF can begin no UTF-8 sequence) while the same bytes read under latin1
succeed. -/
theorem claim_C7 (e : Encoding) (bs : List Nat) :
    (readCsv e bs = Except.error ReadError.decodeError ↔ decodeBytes e bs = none)
  ∧ (∀ cs, decodeBytes e bs = some cs → encodeChars e cs = some bs)
  ∧ readCsv Encoding.utf8 [97, 10, 255] = Except.error ReadError.decodeError
  ∧ readCsv Encoding.latin1 [97, 10, 255] = Except.ok ⟨[[97]], [[Value.str [255]]]⟩ := by
  refine ⟨⟨?_, readCsv_decode_none e bs⟩,
    fun cs h => encodeChars_decodeBytes e bs cs h, rfl, rfl⟩
  intro h
  cases hd : decodeBytes e bs with
  | none => rfl
  | some cs =>
    exfalso
    cases ht : readText cs with
    | none =>
      rw [readCsv_parse_none e bs cs hd ht] at h
      simp at h
    | some t =>
      rw [readCsv_some e bs cs t hd ht] at h
      simp at h

/-- Claim C8 (amended): projecting any table onto the empty selection
succeeds with a zero-column table keeping the original row count, and
serializing that table emits one empty newline-terminated line per data row
plus one for the header — row count + 1 newline bytes in all, not a single
empty line as the original claim said (a single empty line only happens
when the table has zero rows). -/
theorem claim_C8 (t : Table) :
    ∃ t2, project t [] = Except.ok t2 ∧ t2.header = []
      ∧ t2.rows.length = t.rows.length
      ∧ writeText t2 = List.replicate (t.rows.length + 1) 10 := by
  refine ⟨⟨[], t.rows.map (fun _ => [])⟩, ?_, rfl, by simp, ?_⟩
  · exact project_ok t [] (by simp)
  · rw [show writeText ⟨[], t.rows.map (fun _ => ([] : List Value))⟩
        = List.replicate ((t.rows.map (fun _ => ([] : List Value))).length + 1) 10
      from writeText_zero_cols (t.rows.map (fun _ => [])) (by simp)]
    simp

/-- Claim C8, counterexample to the original statement: projecting a
one-row table onto the empty selection and serializing the result yields
two newline bytes — an empty header line and an empty row line — not the
single empty line the claim promised. -/
theorem claim_C8_cex :
    project ⟨[[97]], [[Value.str [98]]]⟩ [] = Except.ok ⟨[], [[]]⟩
  ∧ writeText ⟨[], [[]]⟩ = [10, 10]
  ∧ writeText (⟨[], [[]]⟩ : Table) ≠ [10] :=
  ⟨rfl, rfl, by decide⟩

/-- Claim C2: on every well-formed table, filling with column means keeps
the header and the row count; in a numeric-dtype column with at least one
non-missing value every missing cell becomes the mean of the non-missing
values and every other cell is unchanged; a cell of a non-numeric column,
or of an all-missing numeric column (whose pandas mean is NaN, which fills
nothing), is unchanged; and afterwards a numeric column with at least one
non-missing value holds no missing value at all. -/
theorem claim_C2 (t : Table) (hwf : tableWF t = true) :
    (fillMissingNumericWithMean t).header = t.header
  ∧ (fillMissingNumericWithMean t).rows.length = t.rows.length
  ∧ (∀ i, i < t.rows.length → ∀ j, j < t.header.length →
      (numericCol t.rows j = true → colNonMissing t.rows j ≠ [] →
        cellAt ((fillMissingNumericWithMean t).rows.getD i []) j
          = (if cellAt (t.rows.getD i []) j = Value.missing
             then Value.num (colMeanVal t.rows j)
             else cellAt (t.rows.getD i []) j))
      ∧ ((numericCol t.rows j = false ∨ colNonMissing t.rows j = []) →
        cellAt ((fillMissingNumericWithMean t).rows.getD i []) j
          = cellAt (t.rows.getD i []) j))
  ∧ (∀ j, j < t.header.length → numericCol t.rows j = true →
      colNonMissing t.rows j ≠ [] →
      ∀ r ∈ (fillMissingNumericWithMean t).rows, cellAt r j ≠ Value.missing) := by
  refine ⟨rfl, by simp [fillMissingNumericWithMean], ?_, ?_⟩
  · intro i hi j hj
    have hrow : (fillMissingNumericWithMean t).rows.getD i []
        = (t.rows.getD i []).mapIdx (fun j v => fillCell t.rows j v) := by
      show (t.rows.map (fun r => r.mapIdx (fun j v => fillCell t.rows j v))).getD i []
        = (t.rows.getD i []).mapIdx (fun j v => fillCell t.rows j v)
      rw [getD_map (fun r => r.mapIdx (fun j v => fillCell t.rows j v)) t.rows i [] [] hi]
    have hjlen : j < (t.rows.getD i []).length := by
      rw [tableWF_row_length t hwf (t.rows.getD i []) (getD_mem_of_lt t.rows i [] hi)]
      exact hj
    constructor
    · intro hnum hne
      rw [hrow, fillRow_getD t.rows (t.rows.getD i []) j hjlen]
      by_cases hv : cellAt (t.rows.getD i []) j = Value.missing
      · rw [if_pos hv, hv, fillCell_missing_mean t.rows j hnum hne]
      · rw [if_neg hv]
        exact fillCell_not_missing t.rows j (cellAt (t.rows.getD i []) j) hv
    · intro hcase
      rw [hrow, fillRow_getD t.rows (t.rows.getD i []) j hjlen]
      exact fillCell_eq_self t.rows j (cellAt (t.rows.getD i []) j) hcase
  · intro j hj hnum hne r hr
    have hr2 : r ∈ t.rows.map (fun r => r.mapIdx (fun j v => fillCell t.rows j v)) := hr
    rw [List.mem_map] at hr2
    obtain ⟨r0, hr0, rfl⟩ := hr2
    have hlen : j < r0.length := by
      rw [tableWF_row_length t hwf r0 hr0]
      exact hj
    rw [fillRow_getD t.rows r0 j hlen]
    exact fillCell_ne_missing t.rows j (cellAt r0 j) hnum hne

theorem claim_C2_witness :
    tableWF ⟨[[97], [98]],
      [[Value.num 1, Value.str [120]], [Value.missing, Value.str [121]]]⟩ = true
  ∧ ((fillMissingNumericWithMean ⟨[[97], [98]],
        [[Value.num 1, Value.str [120]], [Value.missing, Value.str [121]]]⟩).header
      = [[97], [98]]
    ∧ (fillMissingNumericWithMean ⟨[[97], [98]],
        [[Value.num 1, Value.str [120]], [Value.missing, Value.str [121]]]⟩).rows.length = 2
    ∧ (∀ i, i < 2 → ∀ j, j < 2 →
        (numericCol [[Value.num 1, Value.str [120]], [Value.missing, Value.str [121]]] j = true →
          colNonMissing [[Value.num 1, Value.str [120]], [Value.missing, Value.str [121]]] j ≠ [] →
          cellAt ((fillMissingNumericWithMean ⟨[[97], [98]],
              [[Value.num 1, Value.str [120]], [Value.missing, Value.str [121]]]⟩).rows.getD i []) j
            = (if cellAt (([[Value.num 1, Value.str [120]],
                  [Value.missing, Value.str [121]]] : List (List Value)).getD i []) j
                  = Value.missing
               then Value.num (colMeanVal
                 [[Value.num 1, Value.str [120]], [Value.missing, Value.str [121]]] j)
               else cellAt (([[Value.num 1, Value.str [120]],
                  [Value.missing, Value.str [121]]] : List (List Value)).getD i []) j))
        ∧ ((numericCol [[Value.num 1, Value.str [120]], [Value.missing, Value.str [121]]] j = false
            ∨ colNonMissing [[Value.num 1, Value.str [120]], [Value.missing, Value.str [121]]] j = []) →
          cellAt ((fillMissingNumericWithMean ⟨[[97], [98]],
              [[Value.num 1, Value.str [120]], [Value.missing, Value.str [121]]]⟩).rows.getD i []) j
            = cellAt (([[Value.num 1, Value.str [120]],
                [Value.missing, Value.str [121]]] : List (List Value)).getD i []) j))
    ∧ (∀ j, j < 2 →
        numericCol [[Value.num 1, Value.str [120]], [Value.missing, Value.str [121]]] j = true →
        colNonMissing [[Value.num 1, Value.str [120]], [Value.missing, Value.str [121]]] j ≠ [] →
        ∀ r ∈ (fillMissingNumericWithMean ⟨[[97], [98]],
            [[Value.num 1, Value.str [120]], [Value.missing, Value.str [121]]]⟩).rows,
          cellAt r j ≠ Value.missing)) :=
  ⟨by decide,
   claim_C2 ⟨[[97], [98]],
     [[Value.num 1, Value.str [120]], [Value.missing, Value.str [121]]]⟩ (by decide)⟩

/-- Claim C5: on a well-formed table with distinct column names, projecting
onto a selection of existing columns succeeds with exactly the selected
columns in the order given, the row count preserved, and position k of each
output row holding precisely the input row's value in the column named by
selection entry k; projecting onto the full original column list in its
original order returns the input table itself. -/
theorem claim_C5 (t : Table) (hwf : tableWF t = true) (hnd : t.header.Nodup)
    (sel : List (List Nat)) (hsel : ∀ c ∈ sel, c ∈ t.header) :
    (∃ t2, project t sel = Except.ok t2 ∧ t2.header = sel
      ∧ t2.rows.length = t.rows.length
      ∧ ∀ i, i < t.rows.length → ∀ k, k < sel.length →
          cellAt (t2.rows.getD i []) k
            = cellAt (t.rows.getD i []) (t.header.indexOf (sel.getD k [])))
  ∧ project t t.header = Except.ok t := by
  constructor
  · refine ⟨⟨sel, t.rows.map (fun r => sel.map (fun c => cellAt r (t.header.indexOf c)))⟩,
      project_ok t sel hsel, rfl, by simp, ?_⟩
    intro i hi k hk
    exact project_cell t sel i k hi hk
  · exact project_full t hwf hnd

theorem claim_C5_witness :
    tableWF ⟨[[100], [101]], [[Value.num 3, Value.num 4]]⟩ = true
  ∧ ([[100], [101]] : List (List Nat)).Nodup
  ∧ (∀ c ∈ ([[101]] : List (List Nat)), c ∈ ([[100], [101]] : List (List Nat)))
  ∧ ((∃ t2, project ⟨[[100], [101]], [[Value.num 3, Value.num 4]]⟩ [[101]] = Except.ok t2
        ∧ t2.header = [[101]]
        ∧ t2.rows.length = 1
        ∧ ∀ i, i < 1 → ∀ k, k < 1 →
            cellAt (t2.rows.getD i []) k
              = cellAt (([[Value.num 3, Value.num 4]] : List (List Value)).getD i [])
                  (([[100], [101]] : List (List Nat)).indexOf
                    (([[101]] : List (List Nat)).getD k [])))
     ∧ project ⟨[[100], [101]], [[Value.num 3, Value.num 4]]⟩ [[100], [101]]
         = Except.ok ⟨[[100], [101]], [[Value.num 3, Value.num 4]]⟩) :=
  ⟨by decide, by decide, by decide,
   claim_C5 ⟨[[100], [101]], [[Value.num 3, Value.num 4]]⟩ (by decide) (by decide)
     [[101]] (by decide)⟩

/-- Claim C10 (amended): the export branch pairs the serialized buffer with
text/csv for delimited-text export and the spreadsheet MIME type for Excel
export, reuses the ingestion encoding exactly when the lowercased input
extension is .csv, and derives the download name with Python str.replace:
when the lowercased extension closes the name and occurs nowhere earlier,
this is the stem with the format's canonical extension (.csv or .xlsx)
appended. The original claim promised extension replacement for every
name; str.replace is case-sensitive on every occurrence of the lowercased
extension, so an upper-case extension is never replaced and repeated
occurrences are all replaced. -/
theorem claim_C10 (name stem : List Char) (fmt : ExportFormat) (enc : Encoding)
    (hsplit : name = stem ++ fileExtension name)
    (hext : fileExtension name ≠ [])
    (hocc : ∀ i, i < stem.length → leadsWith (fileExtension name) (name.drop i) = false) :
    downloadName name fmt = stem ++ outputExt fmt
  ∧ mimeType ExportFormat.csv = "text/csv"
  ∧ mimeType ExportFormat.excel
      = "application/vnd.openxmlformats-officedocument.spreadsheetml.sheet"
  ∧ outputExt ExportFormat.csv = ['.', 'c', 's', 'v']
  ∧ outputExt ExportFormat.excel = ['.', 'x', 'l', 's', 'x']
  ∧ (fileExtension name = ['.', 'c', 's', 'v'] → exportEncoding name enc = enc)
  ∧ (fileExtension name ≠ ['.', 'c', 's', 'v'] → exportEncoding name enc = Encoding.utf8) := by
  refine ⟨?_, rfl, rfl, rfl, rfl, ?_, ?_⟩
  · rw [downloadName]
    set ext := fileExtension name with hdefext
    rw [hsplit]
    apply replaceAll_single ext (outputExt fmt) stem hext
    intro i hi
    rw [← hsplit]
    exact hocc i hi
  · intro h
    rw [exportEncoding, if_pos h]
  · intro h
    rw [exportEncoding, if_neg h]

theorem claim_C10_witness :
    (['d', 'a', 't', 'a', '.', 'c', 's', 'v'] : List Char)
      = ['d', 'a', 't', 'a'] ++ fileExtension ['d', 'a', 't', 'a', '.', 'c', 's', 'v']
  ∧ fileExtension ['d', 'a', 't', 'a', '.', 'c', 's', 'v'] ≠ []
  ∧ (∀ i, i < (['d', 'a', 't', 'a'] : List Char).length →
      leadsWith (fileExtension ['d', 'a', 't', 'a', '.', 'c', 's', 'v'])
        ((['d', 'a', 't', 'a', '.', 'c', 's', 'v'] : List Char).drop i) = false)
  ∧ (downloadName ['d', 'a', 't', 'a', '.', 'c', 's', 'v'] ExportFormat.excel
      = ['d', 'a', 't', 'a'] ++ outputExt ExportFormat.excel
    ∧ mimeType ExportFormat.csv = "text/csv"
    ∧ mimeType ExportFormat.excel
        = "application/vnd.openxmlformats-officedocument.spreadsheetml.sheet"
    ∧ outputExt ExportFormat.csv = ['.', 'c', 's', 'v']
    ∧ outputExt ExportFormat.excel = ['.', 'x', 'l', 's', 'x']
    ∧ (fileExtension ['d', 'a', 't', 'a', '.', 'c', 's', 'v'] = ['.', 'c', 's', 'v'] →
        exportEncoding ['d', 'a', 't', 'a', '.', 'c', 's', 'v'] Encoding.cp1252
          = Encoding.cp1252)
    ∧ (fileExtension ['d', 'a', 't', 'a', '.', 'c', 's', 'v'] ≠ ['.', 'c', 's', 'v'] →
        exportEncoding ['d', 'a', 't', 'a', '.', 'c', 's', 'v'] Encoding.cp1252
          = Encoding.utf8)) :=
  ⟨by decide, by decide, by decide,
   claim_C10 ['d', 'a', 't', 'a', '.', 'c', 's', 'v'] ['d', 'a', 't', 'a']
     ExportFormat.excel Encoding.cp1252 (by decide) (by decide) (by decide)⟩

/-- Claim C10, counterexample to the original statement: exporting the file
A.CSV to Excel offers the download name A.CSV unchanged — str.replace looks
for the lowercased extension .csv, which the upper-case name never
contains, so the canonical .xlsx extension is not attached. -/
theorem claim_C10_cex :
    downloadName ['A', '.', 'C', 'S', 'V'] ExportFormat.excel = ['A', '.', 'C', 'S', 'V']
  ∧ (['A', '.', 'C', 'S', 'V'] : List Char) ≠ ['A'] ++ outputExt ExportFormat.excel :=
  ⟨by decide, by decide⟩
